import Mathlib

/-!
Verification of the openbindings-go schema-compatibility engine and the
RFC 8785 canonical JSON encoder, as a shallow embedding in Lean.

Modelling conventions:
* Go's decoded JSON values (`any` holding nil / bool / string / json.Number /
  []any / map[string]any) are the inductive `Json`.  A JSON number is kept in
  its decimal form `m * 10^e` (mantissa and base-10 exponent), which is the
  information `json.Number` carries; its numeric view (Go converts to float64
  via `toFloat64`) is the exact decimal `m * 10^e`, compared exactly.  All
  bound comparisons in the repository are on small decimal constants, where
  the float64 view and the exact decimal view decide identically.
* `map[string]any` is an association list `JObj`; Go maps have no duplicate
  keys, lookups are by key, and iteration order is not semantically relevant
  to any of the verified properties.  Map assignment is modelled as
  remove-then-append, which has the same lookup semantics.
* Go's recursion is modelled with an explicit fuel parameter; every public
  entry point in the claims is evaluated at a fuel large enough for the
  concrete inputs, and universal statements quantify over all fuels.
-/

inductive Json where
  | null : Json
  | bool (b : Bool) : Json
  | str (s : String) : Json
  | num (m : Int) (e : Int) : Json
  | arr (xs : List Json) : Json
  | obj (fields : List (String × Json)) : Json

/-- `map[string]any` as an association list. -/
abbrev JObj := List (String × Json)

/-- Key lookup, mirroring Go map indexing `m[k]`. -/
def getKey (o : JObj) (k : String) : Option Json :=
  (o.find? (fun p => p.1 == k)).map (fun p => p.2)

/-- `hasKey` from compat.go: `_, ok := m[key]`. -/
def hasKey (o : JObj) (k : String) : Bool :=
  (getKey o k).isSome

/-- Go map assignment `m[k] = v`.  Go maps are unordered, so the entry's
position carries no meaning; we model assignment as remove-then-append. -/
def setKey (o : JObj) (k : String) (v : Json) : JObj :=
  o.filter (fun p => !(p.1 == k)) ++ [(k, v)]

/-- `asMap` from part_003: the `map[string]any` type assertion. -/
def asMap (v : Option Json) : Option JObj :=
  match v with
  | some (.obj fields) => some fields
  | _ => none

/-- `asSlice` from part_003: the `[]any` type assertion. -/
def asSlice (v : Option Json) : Option (List Json) :=
  match v with
  | some (.arr xs) => some xs
  | _ => none

/-- The numeric view of a JSON number: the exact decimal `m * 10^e` as a
mantissa/exponent pair.  Comparisons are exact integer comparisons after
aligning exponents. -/
abbrev Dec := Int × Int

/-- `10 ^ n` over the integers. -/
def pow10 : Nat → Int
  | 0 => 1
  | Nat.succ n => 10 * pow10 n

/-- Align two decimals to a common exponent. -/
def decScale (a b : Dec) : Int × Int :=
  let e := min a.2 b.2
  (a.1 * pow10 (a.2 - e).toNat, b.1 * pow10 (b.2 - e).toNat)

/-- Exact `<` on decimal values. -/
def decLt (a b : Dec) : Bool :=
  (decScale a b).1 < (decScale a b).2

/-- Exact `≤` on decimal values. -/
def decLe (a b : Dec) : Bool :=
  (decScale a b).1 ≤ (decScale a b).2

/-- `toFloat64` from part_003: numeric view of a JSON value; unrecognised
types silently convert to 0.  (Go converts to float64; every numeric
constant compared in this development is exactly representable, so the
exact decimal view decides identically.) -/
def toFloat64 (v : Json) : Dec :=
  match v with
  | .num m e => (m, e)
  | _ => (0, 0)

/-- Whether a value is one of the numeric representations `toFloat64`
recognises (float64 / int / int64 / json.Number all decode to `.num`). -/
def isNumRep (v : Json) : Bool :=
  match v with
  | .num _ _ => true
  | _ => false

theorem find?_filter_out (o : JObj) (k : String) :
    (o.filter (fun p => !(p.1 == k))).find? (fun p => p.1 == k) = none := by
  rw [List.find?_eq_none]
  intro x hx
  have hmem := List.of_mem_filter hx
  simp only [Bool.not_eq_true'] at hmem
  simp [hmem]

theorem find?_filter_keep (o : JObj) (k k' : String) (h : k' ≠ k) :
    (o.filter (fun p => !(p.1 == k))).find? (fun p => p.1 == k') =
      o.find? (fun p => p.1 == k') := by
  induction o with
  | nil => rfl
  | cons p r ih =>
    by_cases hk : p.1 = k
    · have hk' : (p.1 == k') = false := by
        simp only [beq_eq_false_iff_ne]
        rw [hk]
        exact fun hh => h hh.symm
      have hf : (!(p.1 == k)) = false := by simp [hk]
      rw [List.filter_cons, hf]
      simp only [Bool.false_eq_true, if_false]
      rw [ih, List.find?_cons_of_neg _ (by simp [hk'])]
    · have hf : (!(p.1 == k)) = true := by simp [hk]
      by_cases hk2 : p.1 = k'
      · rw [List.filter_cons, hf]
        simp only [if_true]
        rw [List.find?_cons_of_pos _ (by simp [hk2]),
          List.find?_cons_of_pos _ (by simp [hk2])]
      · rw [List.filter_cons, hf]
        simp only [if_true]
        rw [List.find?_cons_of_neg _ (by simp [hk2]),
          List.find?_cons_of_neg _ (by simp [hk2]), ih]

theorem getKey_setKey_same (o : JObj) (k : String) (v : Json) :
    getKey (setKey o k v) k = some v := by
  unfold setKey getKey
  rw [List.find?_append, find?_filter_out]
  simp [List.find?]

theorem getKey_setKey_ne (o : JObj) (k k' : String) (v : Json) (h : k' ≠ k) :
    getKey (setKey o k v) k' = getKey o k' := by
  unfold setKey getKey
  have hkk : (k == k') = false := by
    simp only [beq_eq_false_iff_ne]
    exact fun hh => h hh.symm
  rw [List.find?_append, find?_filter_keep _ _ _ h]
  cases hfind : o.find? (fun p => p.1 == k') with
  | some p => rfl
  | none => simp [List.find?, hkk]

theorem hasKey_setKey_same (o : JObj) (k : String) (v : Json) :
    hasKey (setKey o k v) k = true := by
  unfold hasKey
  rw [getKey_setKey_same]
  rfl

theorem hasKey_setKey_ne (o : JObj) (k k' : String) (v : Json) (h : k' ≠ k) :
    hasKey (setKey o k v) k' = hasKey o k' := by
  unfold hasKey
  rw [getKey_setKey_ne _ _ _ _ h]

/-- ASCII whitespace (the `strings.TrimSpace` cutset restricted to the
characters that occur in JSON documents). -/
def isSpaceChar (c : Char) : Bool :=
  c.toNat == 32 || (9 ≤ c.toNat && c.toNat ≤ 13)

/-- `strings.TrimSpace`. -/
def trimWS (s : String) : String :=
  String.mk (((s.data.dropWhile isSpaceChar).reverse.dropWhile isSpaceChar).reverse)

/-- `strings.HasPrefix`. -/
def strStartsWith (s pre : String) : Bool :=
  pre.data.isPrefixOf s.data

/-- `strings.Split` with a one-character separator. -/
def splitChars (sep : Char) : List Char → List (List Char)
  | [] => [[]]
  | c :: rest =>
    if c = sep then [] :: splitChars sep rest
    else
      match splitChars sep rest with
      | h :: t => (c :: h) :: t
      | [] => [[c]]

/-- Parse a decimal digit string. -/
def digitsToNatAux (acc : Nat) : List Char → Option Nat
  | [] => some acc
  | c :: rest =>
    if 48 ≤ c.toNat && c.toNat ≤ 57 then
      digitsToNatAux (acc * 10 + (c.toNat - 48)) rest
    else none

/-- `strconv.Atoi`: an optional sign followed by at least one digit. -/
def strAtoi (s : String) : Option Int :=
  match s.data with
  | [] => none
  | '-' :: ds =>
    match ds with
    | [] => none
    | _ => (digitsToNatAux 0 ds).map (fun n => -(n : Int))
  | '+' :: ds =>
    match ds with
    | [] => none
    | _ => (digitsToNatAux 0 ds).map (fun n => (n : Int))
  | ds => (digitsToNatAux 0 ds).map (fun n => (n : Int))

/-- Lexicographic strict comparison of code-unit sequences, mirroring
`lessUTF16` from canonicaljson.go: first differing unit decides, otherwise
the shorter sequence is smaller. -/
def lexLt : List Nat → List Nat → Bool
  | [], [] => false
  | [], _ :: _ => true
  | _ :: _, [] => false
  | a :: as, b :: bs => if a < b then true else if b < a then false else lexLt as bs

theorem lexLt_asymm : ∀ a b : List Nat, lexLt a b = true → lexLt b a = false
  | [], [] => by simp [lexLt]
  | [], _ :: _ => by simp [lexLt]
  | _ :: _, [] => by simp [lexLt]
  | a :: as, b :: bs => by
    simp only [lexLt]
    intro h
    by_cases hab : a < b
    · simp [Nat.lt_asymm hab, Nat.ne_of_gt hab, hab]
    · by_cases hba : b < a
      · simp [hab, hba] at h
      · have hEq : a = b := Nat.le_antisymm (Nat.le_of_not_lt hba) (Nat.le_of_not_lt hab)
        simp only [hab, if_false, hba, ite_false, ite_true] at h
        simp [hEq, Nat.lt_irrefl, lexLt_asymm as bs h]

theorem lexLt_trans : ∀ a b c : List Nat,
    lexLt a b = true → lexLt b c = true → lexLt a c = true
  | [], b, [] => by cases b <;> simp [lexLt]
  | [], [], _ :: _ => by simp [lexLt]
  | [], _ :: _, _ :: _ => by simp [lexLt]
  | _ :: _, [], _ => by simp [lexLt]
  | _ :: _, _ :: _, [] => by simp [lexLt]
  | a :: as, b :: bs, c :: cs => by
    simp only [lexLt]
    intro hab hbc
    by_cases h1 : a < b
    · by_cases h2 : b < c
      · simp [Nat.lt_trans h1 h2]
      · by_cases h3 : c < b
        · simp [h2, h3] at hbc
        · have hEq : b = c := Nat.le_antisymm (Nat.le_of_not_lt h3) (Nat.le_of_not_lt h2)
          simp [hEq ▸ h1]
    · by_cases h4 : b < a
      · simp [h1, h4] at hab
      · have hEq : a = b := Nat.le_antisymm (Nat.le_of_not_lt h4) (Nat.le_of_not_lt h1)
        subst hEq
        by_cases h2 : a < c
        · simp [h2]
        · by_cases h3 : c < a
          · simp [h2, h3] at hbc
          · simp only [h1, if_false, Nat.lt_irrefl, ite_false, ite_true] at hab hbc ⊢
            simp only [h2, if_false, h3, ite_false, ite_true] at hbc ⊢
            exact lexLt_trans as bs cs hab hbc

theorem lexLt_total_eq : ∀ a b : List Nat,
    lexLt a b = false → lexLt b a = false → a = b
  | [], [] => by simp
  | [], _ :: _ => by simp [lexLt]
  | _ :: _, [] => by simp [lexLt]
  | a :: as, b :: bs => by
    simp only [lexLt]
    intro hab hba
    by_cases h1 : a < b
    · simp [h1] at hab
    · by_cases h2 : b < a
      · simp [h2] at hba
      · have hEq : a = b := Nat.le_antisymm (Nat.le_of_not_lt h2) (Nat.le_of_not_lt h1)
        subst hEq
        simp only [Nat.lt_irrefl, ite_false, ite_true, if_false] at hab hba
        rw [lexLt_total_eq as bs hab hba]

/-- Comparison of character sequences by code point; identical to Go's
byte-wise `<` on UTF-8 strings, because UTF-8 preserves code-point order. -/
def chrLt (a b : List Char) : Bool :=
  lexLt (a.map Char.toNat) (b.map Char.toNat)

/-- Go string `<`. -/
def strLt (s t : String) : Bool :=
  chrLt s.data t.data

theorem charToNat_inj {c d : Char} (h : c.toNat = d.toNat) : c = d :=
  Char.ext (UInt32.ext h)

theorem mapCharToNat_inj : ∀ {a b : List Char},
    a.map Char.toNat = b.map Char.toNat → a = b
  | [], [], _ => rfl
  | [], _ :: _, h => by simp at h
  | _ :: _, [], h => by simp at h
  | a :: as, b :: bs, h => by
    simp only [List.map_cons, List.cons.injEq] at h
    rw [charToNat_inj h.1, mapCharToNat_inj h.2]

theorem strLt_total_eq {s t : String} (h1 : strLt s t = false)
    (h2 : strLt t s = false) : s = t := by
  unfold strLt chrLt at h1 h2
  have hd := mapCharToNat_inj (lexLt_total_eq _ _ h1 h2)
  cases s; cases t
  exact congrArg String.mk hd

theorem strLt_trans {a b c : String} (h1 : strLt a b = true)
    (h2 : strLt b c = true) : strLt a c = true :=
  lexLt_trans _ _ _ h1 h2

theorem strLt_asymm {a b : String} (h : strLt a b = true) : strLt b a = false :=
  lexLt_asymm _ _ h

/-- Insertion step of the insertion sort that models Go's `sort.Slice`. -/
def insertBy (lt : α → α → Bool) (x : α) : List α → List α
  | [] => [x]
  | y :: ys => if lt x y then x :: y :: ys else y :: insertBy lt x ys

/-- Insertion sort; Go's `sort.Slice` produces a permutation of its input
that is sorted with respect to the supplied comparison, which is exactly
what this function produces. -/
def sortBy (lt : α → α → Bool) (l : List α) : List α :=
  l.foldr (insertBy lt) []

theorem mem_insertBy (lt : α → α → Bool) (x : α) :
    ∀ l (w : α), w ∈ insertBy lt x l ↔ w = x ∨ w ∈ l
  | [], w => by simp [insertBy]
  | y :: ys, w => by
    simp only [insertBy]
    cases h : lt x y with
    | true =>
      simp only [if_true, List.mem_cons]
    | false =>
      simp only [Bool.false_eq_true, if_false, List.mem_cons, mem_insertBy lt x ys w]
      tauto

theorem perm_insertBy (lt : α → α → Bool) (x : α) :
    ∀ l, (insertBy lt x l).Perm (x :: l)
  | [] => by simp [insertBy]
  | y :: ys => by
    simp only [insertBy]
    cases h : lt x y with
    | true => simp
    | false =>
      simp only [Bool.false_eq_true, if_false]
      exact ((perm_insertBy lt x ys).cons y).trans (List.Perm.swap x y ys)

theorem perm_sortBy (lt : α → α → Bool) : ∀ l : List α, (sortBy lt l).Perm l
  | [] => List.Perm.refl []
  | x :: xs => by
    simp only [sortBy, List.foldr]
    exact (perm_insertBy lt x _).trans ((perm_sortBy lt xs).cons x)

theorem pairwise_insertBy (lt : α → α → Bool)
    (hasym : ∀ a b, lt a b = true → lt b a = false)
    (htr : ∀ a b c, lt a b = true → lt b c = true → lt a c = true)
    (x : α) : ∀ l, l.Pairwise (fun a b => lt b a = false) →
      (insertBy lt x l).Pairwise (fun a b => lt b a = false)
  | [], _ => by simp [insertBy]
  | y :: ys, hp => by
    simp only [insertBy]
    rcases List.pairwise_cons.mp hp with ⟨hy, hys⟩
    cases h : lt x y with
    | true =>
      simp only [if_true]
      refine List.pairwise_cons.mpr ⟨?_, hp⟩
      intro z hz
      rcases List.mem_cons.mp hz with hz | hz
      · subst hz; exact hasym _ _ h
      · cases hcon : lt z x with
        | false => rfl
        | true =>
          have := htr _ _ _ hcon h
          rw [hy z hz] at this
          exact absurd this (by simp)
    | false =>
      simp only [Bool.false_eq_true, if_false]
      refine List.pairwise_cons.mpr ⟨?_, pairwise_insertBy lt hasym htr x ys hys⟩
      intro z hz
      rcases (mem_insertBy lt x ys z).mp hz with hz | hz
      · subst hz; exact h
      · exact hy z hz

theorem pairwise_sortBy (lt : α → α → Bool)
    (hasym : ∀ a b, lt a b = true → lt b a = false)
    (htr : ∀ a b c, lt a b = true → lt b c = true → lt a c = true) :
    ∀ l : List α, (sortBy lt l).Pairwise (fun a b => lt b a = false)
  | [] => List.Pairwise.nil
  | x :: xs => by
    simp only [sortBy, List.foldr]
    exact pairwise_insertBy lt hasym htr x _ (pairwise_sortBy lt hasym htr xs)

theorem sortedKeyPermEq {α : Type _} (κ : α → List Nat) :
    ∀ (l1 l2 : List α), l1.Perm l2 →
      l1.Pairwise (fun a b => lexLt (κ b) (κ a) = false) →
      l2.Pairwise (fun a b => lexLt (κ b) (κ a) = false) →
      (l1.map κ).Nodup → l1 = l2
  | [], _, hp, _, _, _ => hp.nil_eq
  | a :: t1, l2, hp, hs1, hs2, hnd => by
    have ha2 : a ∈ l2 := hp.mem_iff.mp (List.mem_cons_self a t1)
    cases l2 with
    | nil => exact absurd hp.symm.nil_eq (by simp)
    | cons b t2 =>
      by_cases hab : a = b
      · subst hab
        rw [sortedKeyPermEq κ t1 t2 hp.cons_inv (List.pairwise_cons.mp hs1).2
          (List.pairwise_cons.mp hs2).2
          (List.nodup_cons.mp (by simpa using hnd)).2]
      · have hat2 : a ∈ t2 := by
          rcases List.mem_cons.mp ha2 with h | h
          · exact absurd h hab
          · exact h
        have hb1 : b ∈ a :: t1 := hp.symm.mem_iff.mp (List.mem_cons_self b t2)
        have hbt1 : b ∈ t1 := by
          rcases List.mem_cons.mp hb1 with h | h
          · exact absurd h.symm hab
          · exact h
        have h1 : lexLt (κ b) (κ a) = false := (List.pairwise_cons.mp hs1).1 b hbt1
        have h2 : lexLt (κ a) (κ b) = false := (List.pairwise_cons.mp hs2).1 a hat2
        have hk : κ a = κ b := lexLt_total_eq _ _ h2 h1
        exfalso
        have hnin : κ a ∉ t1.map κ := (List.nodup_cons.mp (by simpa using hnd)).1
        exact hnin (hk ▸ List.mem_map_of_mem κ hbt1)

/-- Deduplicating sorted insertion for strings.  Go builds a
`map[string]struct{}` and then sorts the keys ascending with `sort.Slice`;
the result is the sorted list of distinct elements, which is exactly what
folding this insertion produces. -/
def insDedup (x : String) : List String → List String
  | [] => [x]
  | y :: ys =>
    if strLt x y then x :: y :: ys
    else if x == y then y :: ys
    else y :: insDedup x ys

/-- Sorted list of the distinct elements of `l`. -/
def sortDedup (l : List String) : List String :=
  l.foldr insDedup []

theorem mem_insDedup (x : String) :
    ∀ l (w : String), w ∈ insDedup x l ↔ w = x ∨ w ∈ l
  | [], w => by simp [insDedup]
  | y :: ys, w => by
    simp only [insDedup]
    cases h : strLt x y with
    | true => simp only [if_true, List.mem_cons]
    | false =>
      simp only [Bool.false_eq_true, if_false]
      cases heq : x == y with
      | true =>
        have : x = y := by simpa using heq
        subst this
        simp only [if_true, List.mem_cons]
        tauto
      | false =>
        simp only [Bool.false_eq_true, if_false, List.mem_cons, mem_insDedup x ys w]
        tauto

theorem mem_sortDedup : ∀ (l : List String) (w : String),
    w ∈ sortDedup l ↔ w ∈ l
  | [], w => by simp [sortDedup]
  | x :: xs, w => by
    simp only [sortDedup, List.foldr, List.mem_cons]
    rw [mem_insDedup]
    have := mem_sortDedup xs w
    simp only [sortDedup] at this
    rw [this]

theorem pairwise_insDedup (x : String) :
    ∀ l, l.Pairwise (fun a b => strLt a b = true) →
      (insDedup x l).Pairwise (fun a b => strLt a b = true)
  | [], _ => by simp [insDedup]
  | y :: ys, hp => by
    simp only [insDedup]
    rcases List.pairwise_cons.mp hp with ⟨hy, hys⟩
    cases h : strLt x y with
    | true =>
      simp only [if_true]
      refine List.pairwise_cons.mpr ⟨?_, hp⟩
      intro z hz
      rcases List.mem_cons.mp hz with hz | hz
      · subst hz; exact h
      · exact strLt_trans h (hy z hz)
    | false =>
      simp only [Bool.false_eq_true, if_false]
      cases heq : x == y with
      | true => simp only [if_true]; exact hp
      | false =>
        have hne : x ≠ y := by simpa using heq
        simp only [Bool.false_eq_true, if_false]
        refine List.pairwise_cons.mpr ⟨?_, pairwise_insDedup x ys hys⟩
        intro z hz
        rcases (mem_insDedup x ys z).mp hz with hz | hz
        · subst hz
          cases hyx : strLt y z with
          | true => rfl
          | false => exact absurd (strLt_total_eq hyx h) (fun hh => hne hh.symm)
        · exact hy z hz

theorem pairwise_sortDedup : ∀ l : List String,
    (sortDedup l).Pairwise (fun a b => strLt a b = true)
  | [] => List.Pairwise.nil
  | x :: xs => by
    simp only [sortDedup, List.foldr]
    exact pairwise_insDedup x _ (pairwise_sortDedup xs)

/-- UTF-16 encoding of one character (`utf16.Encode` on a single rune). -/
def utf16Char (c : Char) : List Nat :=
  if c.toNat < 0x10000 then [c.toNat]
  else [0xD800 + (c.toNat - 0x10000) / 0x400, 0xDC00 + (c.toNat - 0x10000) % 0x400]

/-- UTF-16 code-unit sequence of a string (`utf16.Encode([]rune(k))`). -/
def utf16Str (s : String) : List Nat :=
  s.data.flatMap utf16Char

theorem char_valid_nat (c : Char) :
    c.toNat < 0xD800 ∨ (0xDFFF < c.toNat ∧ c.toNat < 0x110000) :=
  c.valid

theorem utf16Char_ne_nil (c : Char) : utf16Char c ≠ [] := by
  unfold utf16Char
  split <;> simp

theorem utf16Chars_inj : ∀ s t : List Char,
    s.flatMap utf16Char = t.flatMap utf16Char → s = t
  | [], [], _ => rfl
  | [], d :: t, h => by
    rw [List.flatMap_nil, List.flatMap_cons] at h
    cases hc : utf16Char d with
    | nil => exact absurd hc (utf16Char_ne_nil d)
    | cons u us => rw [hc] at h; simp at h
  | c :: s, [], h => by
    rw [List.flatMap_nil, List.flatMap_cons] at h
    cases hc : utf16Char c with
    | nil => exact absurd hc (utf16Char_ne_nil c)
    | cons u us => rw [hc] at h; simp at h
  | c :: s, d :: t, h => by
    rw [List.flatMap_cons, List.flatMap_cons] at h
    unfold utf16Char at h
    rcases char_valid_nat c with hc | hc <;> rcases char_valid_nat d with hd | hd
    · -- both below the surrogate range: single units
      rw [if_pos (by omega), if_pos (by omega)] at h
      simp only [List.cons_append, List.nil_append, List.cons.injEq] at h
      have hcd : c = d := charToNat_inj h.1
      subst hcd
      rw [utf16Chars_inj s t h.2]
    · by_cases hd16 : d.toNat < 0x10000
      · rw [if_pos (by omega), if_pos hd16] at h
        simp only [List.cons_append, List.nil_append, List.cons.injEq] at h
        have hcd : c = d := charToNat_inj h.1
        subst hcd
        rw [utf16Chars_inj s t h.2]
      · rw [if_pos (by omega), if_neg hd16] at h
        simp only [List.cons_append, List.nil_append, List.cons.injEq] at h
        have hq : (d.toNat - 0x10000) / 0x400 < 0x400 := by
          apply Nat.div_lt_of_lt_mul
          omega
        omega
    · by_cases hc16 : c.toNat < 0x10000
      · rw [if_pos hc16, if_pos (by omega)] at h
        simp only [List.cons_append, List.nil_append, List.cons.injEq] at h
        have hcd : c = d := charToNat_inj h.1
        subst hcd
        rw [utf16Chars_inj s t h.2]
      · rw [if_neg hc16, if_pos (by omega)] at h
        simp only [List.cons_append, List.nil_append, List.cons.injEq] at h
        have hq : (c.toNat - 0x10000) / 0x400 < 0x400 := by
          apply Nat.div_lt_of_lt_mul
          omega
        omega
    · by_cases hc16 : c.toNat < 0x10000
      · by_cases hd16 : d.toNat < 0x10000
        · rw [if_pos hc16, if_pos hd16] at h
          simp only [List.cons_append, List.nil_append, List.cons.injEq] at h
          have hcd : c = d := charToNat_inj h.1
          subst hcd
          rw [utf16Chars_inj s t h.2]
        · rw [if_pos hc16, if_neg hd16] at h
          simp only [List.cons_append, List.nil_append, List.cons.injEq] at h
          have hq : (d.toNat - 0x10000) / 0x400 < 0x400 := by
            apply Nat.div_lt_of_lt_mul
            omega
          omega
      · by_cases hd16 : d.toNat < 0x10000
        · rw [if_neg hc16, if_pos hd16] at h
          simp only [List.cons_append, List.nil_append, List.cons.injEq] at h
          have hq : (c.toNat - 0x10000) / 0x400 < 0x400 := by
            apply Nat.div_lt_of_lt_mul
            omega
          omega
        · rw [if_neg hc16, if_neg hd16] at h
          simp only [List.cons_append, List.nil_append, List.cons.injEq] at h
          obtain ⟨h1, h2, h3⟩ := h
          have hdm1 := Nat.div_add_mod (c.toNat - 0x10000) 0x400
          have hdm2 := Nat.div_add_mod (d.toNat - 0x10000) 0x400
          have hcd : c = d := charToNat_inj (by omega)
          subst hcd
          rw [utf16Chars_inj s t h3]

theorem utf16Str_inj {s t : String} (h : utf16Str s = utf16Str t) : s = t := by
  unfold utf16Str at h
  have hd := utf16Chars_inj _ _ h
  cases s; cases t
  exact congrArg String.mk hd

/-- Lowercase hex digit, as produced by `hex.Encode` in `writeJCSString`. -/
def hexDigit (n : Nat) : Char :=
  if n < 10 then Char.ofNat (48 + n) else Char.ofNat (87 + n)

/-- One character of JCS string escaping, mirroring the rune loop of
`writeJCSString`: backslash and quote are escaped, the five shorthand
control escapes are used for 0x08 0x09 0x0A 0x0C 0x0D, remaining control
characters become lowercase `\u00XX`, and everything else is literal. -/
def escapeChar (r : Char) : List Char :=
  if r = '\\' then ['\\', '\\']
  else if r = '"' then ['\\', '"']
  else if r.toNat = 8 then ['\\', 'b']
  else if r.toNat = 9 then ['\\', 't']
  else if r.toNat = 10 then ['\\', 'n']
  else if r.toNat = 12 then ['\\', 'f']
  else if r.toNat = 13 then ['\\', 'r']
  else if r.toNat ≤ 0x1F then
    ['\\', 'u', '0', '0', hexDigit (r.toNat / 16), hexDigit (r.toNat % 16)]
  else [r]

/-- `writeJCSString`: a quoted, escaped JSON string. -/
def quoteJCS (s : String) : List Char :=
  '"' :: (s.data.flatMap escapeChar ++ ['"'])

def lbrace : Char := Char.ofNat 123

def rbrace : Char := Char.ofNat 125

/-- `|m * 10^e| < 10^p`, by exact integer comparison. -/
def decAbsLtPow (m e p : Int) : Bool :=
  if m == 0 then true
  else if p ≤ e then false
  else (m.natAbs : Int) < pow10 (p - e).toNat

/-- `|m * 10^e| ≥ n` for an integer threshold `n`, by exact comparison. -/
def decAbsGeInt (m e n : Int) : Bool :=
  if 0 ≤ e then n ≤ (m.natAbs : Int) * pow10 e.toNat
  else n * pow10 (-e).toNat ≤ (m.natAbs : Int)

/-- The smallest magnitude at which `strconv.ParseFloat` rounds a decimal
to ±Inf (the IEEE-754 binary64 overflow threshold, `2^1024 - 2^970`,
written as a literal);
`formatJCSNumber` then fails with the NaN-or-Infinity error. -/
def dblOverflow : Int :=
  179769313486231580793728971405303415079934132710037826936173778980444968292764750946649017977587207096330286416692887910946555547851940402630657488671505820681908902000708383676273854845817711531764475730270069855571366959622842914819860834936475292719074168444365510704342711559699508093042880177904174497792

/-- Strip factors of ten from a positive mantissa: returns `(m', k)` with
`m = m' * 10^k` and `m'` not divisible by ten.  This produces the shortest
digit string, matching `strconv.FormatFloat(f, _, -1, 64)` on values whose
decimal form is exact. -/
def stripZFAux : Nat → Nat → Nat × Nat
  | 0, m => (m, 0)
  | Nat.succ f, m =>
    if m ≠ 0 ∧ m % 10 = 0 then
      let r := stripZFAux f (m / 10)
      (r.1, r.2 + 1)
    else (m, 0)

def stripZeroFactors (m : Nat) : Nat × Nat :=
  stripZFAux m m

/-- The decimal digit characters. -/
def digitList : List Char :=
  ['0', '1', '2', '3', '4', '5', '6', '7', '8', '9']

/-- The character of a decimal digit. -/
def digitChar (n : Nat) : Char := digitList.getD n '0'

/-- Base-10 digit characters of a natural number, most significant first. -/
def natDigitsAux : Nat → Nat → List Char
  | 0, _ => []
  | Nat.succ f, n =>
    if n < 10 then [digitChar n] else natDigitsAux f (n / 10) ++ [digitChar (n % 10)]

def natDigits (n : Nat) : List Char :=
  natDigitsAux (n + 1) n

/-- Plain decimal rendering of `m * 10^e` (Go `strconv.FormatFloat` with
format `'f'` and shortest digits), for nonzero `m`. -/
def fmtDec (m : Int) (e : Int) : List Char :=
  let sign : List Char := if m < 0 then ['-'] else []
  let r := stripZeroFactors m.natAbs
  let ds := natDigits r.1
  let ep : Int := e + r.2
  if 0 ≤ ep then sign ++ ds ++ List.replicate ep.toNat '0'
  else
    let p := (-ep).toNat
    if p < ds.length then
      sign ++ ds.take (ds.length - p) ++ '.' :: ds.drop (ds.length - p)
    else
      sign ++ '0' :: '.' :: (List.replicate (p - ds.length) '0' ++ ds)

/-- Scientific rendering of `m * 10^e` (Go `strconv.FormatFloat` with
format `'e'` and shortest digits: `d.ddde±XX` with a sign and an exponent
padded to at least two digits), for nonzero `m`. -/
def mantOf (ds : List Char) : List Char :=
  match ds with
  | [] => []
  | [d] => [d]
  | d :: rest => d :: '.' :: rest

def fmtExp (m : Int) (e : Int) : List Char :=
  let sign : List Char := if m < 0 then ['-'] else []
  let r := stripZeroFactors m.natAbs
  let ds := natDigits r.1
  let ex : Int := e + r.2 + (ds.length - 1 : Nat)
  let exDigits := natDigits ex.natAbs
  let exPadded := if exDigits.length < 2 then '0' :: exDigits else exDigits
  sign ++ mantOf ds ++ 'e' :: (if ex < 0 then '-' else '+') :: exPadded

/-- Strip leading zeros from the exponent digits while more than one digit
remains (the loop in `normalizeExponent`). -/
def stripExpZeros : List Char → List Char
  | '0' :: d :: ds => stripExpZeros (d :: ds)
  | l => l

/-- Split a character list at the first occurrence of `c`
(`strings.IndexByte`), dropping the occurrence itself. -/
def splitAtChar (c : Char) : List Char → Option (List Char × List Char)
  | [] => none
  | x :: xs =>
    if x = c then some ([], xs)
    else
      match splitAtChar c xs with
      | some r => some (x :: r.1, r.2)
      | none => none

/-- `normalizeExponent` from canonicaljson.go: rewrite a zero-padded Go
exponent (`1e-07`) to the JCS/ECMAScript form (`1e-7`).  Inputs without an
`e`, or with fewer than two characters after it, are returned unchanged. -/
def normalizeExponent (s : List Char) : List Char :=
  match splitAtChar 'e' s with
  | none => s
  | some r =>
    match r.2 with
    | sign :: d :: ds => r.1 ++ 'e' :: sign :: stripExpZeros (d :: ds)
    | _ => s

/-- `formatJCSNumber`/`formatJCSFloat64`: parse the decimal as a double
(overflow to ±Inf fails), map zero (including negative zero) to `0`, and
otherwise use decimal form for magnitudes in `[1e-6, 1e21)` and normalized
scientific form outside that range. -/
def formatJCSNum (m e : Int) : Except Unit (List Char) :=
  if decAbsGeInt m e dblOverflow then .error ()
  else if m == 0 then .ok ['0']
  else if !(decAbsLtPow m e 21) || decAbsLtPow m e (-6) then
    .ok (normalizeExponent (fmtExp m e))
  else .ok (fmtDec m e)

/-- Comma-join rendered chunks. -/
def joinComma (es : List (List Char)) : List Char :=
  match es with
  | [] => []
  | e :: rest => e ++ rest.flatMap (fun x => ',' :: x)

mutual

/-- `writeJCS` from canonicaljson.go: render a decoded JSON value to RFC
8785 canonical bytes.  Object members are rendered and then emitted sorted
by the UTF-16 code-unit order of their keys (rendering each member first
and then sorting is the same pure function as sorting keys first). -/
def canon : Json → Except Unit (List Char)
  | .null => .ok ['n', 'u', 'l', 'l']
  | .bool b => .ok (if b then ['t', 'r', 'u', 'e'] else ['f', 'a', 'l', 's', 'e'])
  | .str s => .ok (quoteJCS s)
  | .num m e => formatJCSNum m e
  | .arr xs =>
    match canonList xs with
    | .error er => .error er
    | .ok es => .ok ('[' :: (joinComma es ++ [']']))
  | .obj fs =>
    match canonFields fs with
    | .error er => .error er
    | .ok es =>
      .ok (lbrace :: (joinComma ((sortBy (fun a b => lexLt a.1 b.1) es).map
        (fun p => p.2)) ++ [rbrace]))

/-- Render each array element. -/
def canonList : List Json → Except Unit (List (List Char))
  | [] => .ok []
  | x :: xs =>
    match canon x with
    | .error er => .error er
    | .ok c =>
      match canonList xs with
      | .error er => .error er
      | .ok cs => .ok (c :: cs)

/-- Render each object member to its UTF-16 sort key and its
`"key":value` chunk. -/
def canonFields : List (String × Json) → Except Unit (List (List Nat × List Char))
  | [] => .ok []
  | f :: fs =>
    match canon f.2 with
    | .error er => .error er
    | .ok c =>
      match canonFields fs with
      | .error er => .error er
      | .ok cs => .ok ((utf16Str f.1, quoteJCS f.1 ++ ':' :: c) :: cs)

end

/-- `canonicalKey` from compat.go: canonical JSON string of a value, with
a fallback for unserializable values. -/
def canonicalKey (v : Json) : List Char :=
  match canon v with
  | .ok s => s
  | .error _ => ("<unserializable>").data

/-- `equalJSONValue` from compat.go. -/
def equalJSONValue (a b : Json) : Bool :=
  canonicalKey a == canonicalKey b

/-- Structured errors of the schemaprofile package (part_004), plus a
distinguished fuel-exhaustion marker for the recursion model. -/
inductive Err where
  | outsideProfile (path keyword : String)
  | refError (path ref cause : String)
  | schemaError (path msg : String)
  | shapeError (msg : String)
  | fuelOut
deriving DecidableEq

/-- `typeSet` from compat.go: `none` means "all types" (absent or
non-array `type`). -/
def typeSet (schema : JObj) : Option (List String) :=
  match getKey schema ("type") with
  | none => none
  | some v =>
    match asSlice (some v) with
    | none => none
    | some arr =>
      some (arr.filterMap (fun it =>
        match it with
        | .str s => some s
        | _ => none))

/-- `subsetTypes` from compat.go, including the `integer ⊆ number` rule. -/
def subsetTypes (a b : Option (List String)) : Bool :=
  match a with
  | none => b.isNone
  | some la =>
    match b with
    | none => true
    | some lb =>
      la.all (fun k => lb.contains k || (k == "integer" && lb.contains ("number")))

/-- `hasType` from compat.go. -/
def hasType (schema : JObj) (t : String) : Bool :=
  match typeSet schema with
  | none => false
  | some l => l.contains t

/-- `hasUnion` from compat.go. -/
def hasUnion (schema : JObj) : Bool :=
  hasKey schema ("oneOf") || hasKey schema ("anyOf")

/-- `enumSet` from compat.go: the set of canonical keys of the `enum`
values; `none` when `enum` is absent, an empty set when it is present but
not an array. -/
def enumSet (schema : JObj) : Option (List (List Char)) :=
  match getKey schema ("enum") with
  | none => none
  | some v =>
    match asSlice (some v) with
    | none => some []
    | some arr => some ((arr.map canonicalKey).eraseDups)

/-- `stringSet` from compat.go: set of the string elements of an array
value (empty for non-arrays). -/
def stringSet (v : Option Json) : List String :=
  match asSlice v with
  | none => []
  | some arr =>
    ((arr.filterMap (fun it =>
      match it with
      | .str s => some s
      | _ => none))).eraseDups

/-- `compatConstEnum` from compat.go (it never returns an error). -/
def compatConstEnum (tgt cand : JObj) (isInput : Bool) : Bool :=
  let tgtConst := getKey tgt ("const")
  let candConst := getKey cand ("const")
  let tgtEnum := enumSet tgt
  let candEnum := enumSet cand
  if isInput then
    match tgtConst with
    | some tc =>
      match candConst with
      | some cc => equalJSONValue tc cc
      | none =>
        match candEnum with
        | some ce => ce.contains (canonicalKey tc)
        | none => true
    | none =>
      match tgtEnum with
      | some te =>
        match candConst with
        | some cc =>
          if te.length != 1 then false else te.contains (canonicalKey cc)
        | none =>
          match candEnum with
          | some ce => te.all (fun k => ce.contains k)
          | none => true
      | none => true
  else
    match tgtEnum with
    | some te =>
      match candConst with
      | some cc => te.contains (canonicalKey cc)
      | none =>
        match candEnum with
        | some ce => ce.all (fun k => te.contains k)
        | none => false
    | none =>
      match tgtConst with
      | some tc =>
        match candConst with
        | some cc => equalJSONValue tc cc
        | none =>
          match candEnum with
          | some ce =>
            if ce.length != 1 then false else ce.contains (canonicalKey tc)
          | none => false
      | none => true

/-- Numeric view of the value stored under `k` (Go indexes the map and
passes the result — nil for an absent key — to `toFloat64`). -/
def keyNum (o : JObj) (k : String) : Dec :=
  match getKey o k with
  | some v => toFloat64 v
  | none => (0, 0)

/-- `effectiveLowerBound` from compat.go. -/
def effectiveLowerBound (schema : JObj) : Dec × Bool :=
  match getKey schema ("minimum"), getKey schema ("exclusiveMinimum") with
  | some mn, some emn =>
    let mv := toFloat64 mn
    let ev := toFloat64 emn
    if decLe mv ev then (ev, true) else (mv, false)
  | none, some emn => (toFloat64 emn, true)
  | some mn, none => (toFloat64 mn, false)
  | none, none => ((0, 0), false)

/-- `effectiveUpperBound` from compat.go. -/
def effectiveUpperBound (schema : JObj) : Dec × Bool :=
  match getKey schema ("maximum"), getKey schema ("exclusiveMaximum") with
  | some mx, some emx =>
    let mv := toFloat64 mx
    let ev := toFloat64 emx
    if decLe ev mv then (ev, true) else (mv, false)
  | none, some emx => (toFloat64 emx, true)
  | some mx, none => (toFloat64 mx, false)
  | none, none => ((0, 0), false)

/-- `lowerBoundLessOrEqual`: at equal values an exclusive lower bound is
strictly higher (stricter) than an inclusive one. -/
def lowerBoundLessOrEqual (a : Dec) (aEx : Bool) (b : Dec) (bEx : Bool) : Bool :=
  if decLt a b then true
  else if decLt b a then false
  else if aEx && !bEx then false
  else true

/-- `lowerBoundGreaterOrEqual` from compat.go. -/
def lowerBoundGreaterOrEqual (a : Dec) (aEx : Bool) (b : Dec) (bEx : Bool) : Bool :=
  if decLt b a then true
  else if decLt a b then false
  else if bEx && !aEx then false
  else true

/-- `upperBoundLessOrEqual`: at equal values an exclusive upper bound is
strictly lower (stricter) than an inclusive one. -/
def upperBoundLessOrEqual (a : Dec) (aEx : Bool) (b : Dec) (bEx : Bool) : Bool :=
  if decLt a b then true
  else if decLt b a then false
  else if bEx && !aEx then false
  else true

/-- `upperBoundGreaterOrEqual` from compat.go. -/
def upperBoundGreaterOrEqual (a : Dec) (aEx : Bool) (b : Dec) (bEx : Bool) : Bool :=
  if decLt b a then true
  else if decLt a b then false
  else if aEx && !bEx then false
  else true

/-- `compatNumericBounds` from compat.go (pure; it never errors). -/
def compatNumericBounds (tgt cand : JObj) (isInput : Bool) : Bool :=
  let tLo := effectiveLowerBound tgt
  let cLo := effectiveLowerBound cand
  let tHi := effectiveUpperBound tgt
  let cHi := effectiveUpperBound cand
  let tgtHasLo := hasKey tgt ("minimum") || hasKey tgt ("exclusiveMinimum")
  let tgtHasHi := hasKey tgt ("maximum") || hasKey tgt ("exclusiveMaximum")
  let candHasLo := hasKey cand ("minimum") || hasKey cand ("exclusiveMinimum")
  let candHasHi := hasKey cand ("maximum") || hasKey cand ("exclusiveMaximum")
  if isInput then
    if tgtHasLo && candHasLo && !(lowerBoundLessOrEqual cLo.1 cLo.2 tLo.1 tLo.2) then false
    else if tgtHasHi && candHasHi && !(upperBoundGreaterOrEqual cHi.1 cHi.2 tHi.1 tHi.2) then false
    else true
  else
    if tgtHasLo && !(candHasLo && lowerBoundGreaterOrEqual cLo.1 cLo.2 tLo.1 tLo.2) then false
    else if tgtHasHi && !(candHasHi && upperBoundLessOrEqual cHi.1 cHi.2 tHi.1 tHi.2) then false
    else true

/-- `compatSimpleBounds` from compat.go: min/max pairs without
exclusivity (`minLength`/`maxLength` and `minItems`/`maxItems`). -/
def compatSimpleBounds (tgt cand : JObj) (isInput : Bool) (minKey maxKey : String) : Bool :=
  if isInput then
    if hasKey tgt minKey && hasKey cand minKey &&
        decLt (keyNum tgt minKey) (keyNum cand minKey) then false
    else if hasKey tgt maxKey && hasKey cand maxKey &&
        decLt (keyNum cand maxKey) (keyNum tgt maxKey) then false
    else true
  else
    if hasKey tgt minKey &&
        !(hasKey cand minKey && !(decLt (keyNum cand minKey) (keyNum tgt minKey))) then false
    else if hasKey tgt maxKey &&
        !(hasKey cand maxKey && !(decLt (keyNum tgt maxKey) (keyNum cand maxKey))) then false
    else true

/-- `unionVariants` from compat.go. -/
def unionVariants (schema : JObj) : Option (List JObj) :=
  let key : Option String :=
    if hasKey schema ("oneOf") then some ("oneOf")
    else if hasKey schema ("anyOf") then some ("anyOf")
    else none
  match key with
  | none => none
  | some k =>
    match asSlice (getKey schema k) with
    | none => none
    | some arr =>
      arr.foldr (fun it acc =>
        match it, acc with
        | .obj m, some ms => some (m :: ms)
        | _, _ => none) (some [])

/-- Short-circuit sequencing of the Go pattern
`if ok, err := f(); err != nil || !ok { return ok, err }`. -/
def seqCompat (r : Except Err Bool) (k : Unit → Except Err Bool) : Except Err Bool :=
  match r with
  | .error e => .error e
  | .ok false => .ok false
  | .ok true => k ()

mutual

/-- `compat` from compat.go: the directional subset test on normalized
schemas. -/
def compatF (fuel : Nat) (tgt cand : JObj) (isInput : Bool) : Except Err Bool :=
  match fuel with
  | 0 => .error .fuelOut
  | Nat.succ f =>
    if tgt.isEmpty then .ok (if isInput then cand.isEmpty else true)
    else if cand.isEmpty then .ok (if isInput then true else tgt.isEmpty)
    else
      let tTypes := typeSet tgt
      let cTypes := typeSet cand
      if (tTypes.isSome || cTypes.isSome) &&
          (if isInput then !(subsetTypes tTypes cTypes)
           else !(subsetTypes cTypes tTypes)) then .ok false
      else if !(compatConstEnum tgt cand isInput) then .ok false
      else
        seqCompat
          (if hasType tgt ("object") || hasType cand ("object") then
            compatObjectF f tgt cand isInput
          else .ok true) (fun _ =>
        seqCompat
          (if hasType tgt ("array") || hasType cand ("array") then
            compatArrayF f tgt cand isInput
          else .ok true) (fun _ =>
        if (hasType tgt ("number") || hasType tgt ("integer") ||
            hasType cand ("number") || hasType cand ("integer")) &&
            !(compatNumericBounds tgt cand isInput) then .ok false
        else if (hasType tgt ("string") || hasType cand ("string")) &&
            !(compatSimpleBounds tgt cand isInput ("minLength") ("maxLength")) then .ok false
        else if (hasType tgt ("array") || hasType cand ("array")) &&
            !(compatSimpleBounds tgt cand isInput ("minItems") ("maxItems")) then .ok false
        else if hasUnion tgt || hasUnion cand then compatUnionF f tgt cand isInput
        else .ok true))

/-- `compatObject` from compat.go. -/
def compatObjectF (fuel : Nat) (tgt cand : JObj) (isInput : Bool) : Except Err Bool :=
  match fuel with
  | 0 => .error .fuelOut
  | Nat.succ f =>
    let tgtReq := stringSet (getKey tgt ("required"))
    let candReq := stringSet (getKey cand ("required"))
    let tgtProps := (asMap (getKey tgt ("properties"))).getD []
    let candProps := (asMap (getKey cand ("properties"))).getD []
    if isInput then
      if !(candReq.all (fun k => tgtReq.contains k)) then .ok false
      else inPropsLoop f candProps tgtProps
    else
      if !(tgtReq.all (fun k => candReq.contains k)) then .ok false
      else
        let tgtAP := getKey tgt ("additionalProperties")
        seqCompat (outPropsLoop f tgtProps tgtAP candProps) (fun _ =>
          match tgtAP with
          | some (.bool b) =>
            if b = false then
              match getKey cand ("additionalProperties") with
              | some (.bool cb) => .ok (cb == false)
              | _ => .ok false
            else .ok true
          | some (.obj apt) =>
            match getKey cand ("additionalProperties") with
            | some (.obj apc) => compatF f apt apc false
            | some (.bool cb) => if cb == false then .ok true else .ok false
            | _ => .ok false
          | _ => .ok true)

/-- The input-direction property loop of `compatObject`: for each target
property also present on the candidate, recurse. -/
def inPropsLoop (fuel : Nat) (candProps : JObj) (l : List (String × Json)) :
    Except Err Bool :=
  match fuel with
  | 0 => .error .fuelOut
  | Nat.succ f =>
    match l with
    | [] => .ok true
    | pv :: rest =>
      match pv.2 with
      | .obj tvm =>
        match getKey candProps pv.1 with
        | some (.obj cvm) =>
          seqCompat (compatF f tvm cvm true) (fun _ => inPropsLoop f candProps rest)
        | _ => inPropsLoop f candProps rest
      | _ => inPropsLoop f candProps rest

/-- The output-direction property loop of `compatObject`: candidate
properties outside the target's are rejected when the target forbids
additional properties; shared properties recurse. -/
def outPropsLoop (fuel : Nat) (tgtProps : JObj) (tgtAP : Option Json)
    (l : List (String × Json)) : Except Err Bool :=
  match fuel with
  | 0 => .error .fuelOut
  | Nat.succ f =>
    match l with
    | [] => .ok true
    | pv :: rest =>
      if !(hasKey tgtProps pv.1) &&
          (match tgtAP with
           | some (.bool b) => !b
           | _ => false) then .ok false
      else
        match getKey tgtProps pv.1 with
        | some (.obj tvm) =>
          match pv.2 with
          | .obj cvm =>
            seqCompat (compatF f tvm cvm false) (fun _ => outPropsLoop f tgtProps tgtAP rest)
          | _ => outPropsLoop f tgtProps tgtAP rest
        | _ => outPropsLoop f tgtProps tgtAP rest

/-- `compatArray` from compat.go: recurse on `items`, treating an absent
or non-object `items` as Top. -/
def compatArrayF (fuel : Nat) (tgt cand : JObj) (isInput : Bool) : Except Err Bool :=
  match fuel with
  | 0 => .error .fuelOut
  | Nat.succ f =>
    let tv := (asMap (getKey tgt ("items"))).getD []
    let cv := (asMap (getKey cand ("items"))).getD []
    compatF f tv cv isInput

/-- `compatUnion` from compat.go. -/
def compatUnionF (fuel : Nat) (tgt cand : JObj) (isInput : Bool) : Except Err Bool :=
  match fuel with
  | 0 => .error .fuelOut
  | Nat.succ f =>
    match unionVariants tgt, unionVariants cand with
    | some tvs, some cvs =>
      if isInput then inUnionLoop f cvs tvs
      else outUnionLoop f tvs cvs
    | _, _ => .ok false

/-- Inner existential of the input union rule. -/
def exInLoop (fuel : Nat) (v : JObj) (ws : List JObj) : Except Err Bool :=
  match fuel with
  | 0 => .error .fuelOut
  | Nat.succ f =>
    match ws with
    | [] => .ok false
    | w :: rest =>
      match compatF f v w true with
      | .error e => .error e
      | .ok true => .ok true
      | .ok false => exInLoop f v rest

/-- Input union rule: every target variant has a compatible candidate
variant. -/
def inUnionLoop (fuel : Nat) (cvs : List JObj) (tvs : List JObj) : Except Err Bool :=
  match fuel with
  | 0 => .error .fuelOut
  | Nat.succ f =>
    match tvs with
    | [] => .ok true
    | v :: rest =>
      match exInLoop f v cvs with
      | .error e => .error e
      | .ok false => .ok false
      | .ok true => inUnionLoop f cvs rest

/-- Inner existential of the output union rule. -/
def exOutLoop (fuel : Nat) (w : JObj) (vs : List JObj) : Except Err Bool :=
  match fuel with
  | 0 => .error .fuelOut
  | Nat.succ f =>
    match vs with
    | [] => .ok false
    | v :: rest =>
      match compatF f v w false with
      | .error e => .error e
      | .ok true => .ok true
      | .ok false => exOutLoop f w rest

/-- Output union rule: every candidate variant has a compatible target
variant. -/
def outUnionLoop (fuel : Nat) (tvs : List JObj) (cvs : List JObj) : Except Err Bool :=
  match fuel with
  | 0 => .error .fuelOut
  | Nat.succ f =>
    match cvs with
    | [] => .ok true
    | w :: rest =>
      match exOutLoop f w tvs with
      | .error e => .error e
      | .ok false => .ok false
      | .ok true => outUnionLoop f tvs rest

end

/-- The in-scope profile keywords (part_004). -/
def inScopeKeys : List String :=
  ["$ref", "$defs", "allOf", "type", "enum", "const", "properties",
   "required", "additionalProperties", "items", "oneOf", "anyOf",
   "minimum", "maximum", "exclusiveMinimum", "exclusiveMaximum",
   "minLength", "maxLength", "minItems", "maxItems"]

/-- The annotation-only keywords (part_004), stripped by the normalizer. -/
def annotKeys : List String :=
  ["title", "description", "examples", "default", "deprecated",
   "readOnly", "writeOnly", "$schema"]

/-- `pathOrRoot` from part_003. -/
def pathOrRoot (path : String) : String :=
  if path == "" then "<root>" else path

/-- `ptrJoin` from part_003. -/
def ptrJoin (prefx next : String) : String :=
  if prefx == "" then next
  else if next == "" then prefx
  else if strStartsWith next ("[") || strStartsWith next (".") then prefx ++ next
  else prefx ++ (".") ++ next

/-- `assertProfileKeywords` from part_003: the first key outside the
profile fails (Go iterates the map in unspecified order; the model takes
the first offending entry). -/
def checkProfile (schema : JObj) (path : String) : Option Err :=
  match schema.find? (fun p =>
      !(inScopeKeys.contains p.1) && !(annotKeys.contains p.1)) with
  | some p => some (.outsideProfile (pathOrRoot path) p.1)
  | none => none

/-- JSON Pointer token unescaping: `~1` → `/` and `~0` → `~`.  Go applies
two sequential `ReplaceAll` passes; since neither replacement can create a
new occurrence of either pattern, the single left-to-right pass below
computes the same string. -/
def unescapeChars : List Char → List Char
  | [] => []
  | '~' :: '1' :: rest => '/' :: unescapeChars rest
  | '~' :: '0' :: rest => '~' :: unescapeChars rest
  | c :: rest => c :: unescapeChars rest

def unescapeTok (t : String) : String :=
  String.mk (unescapeChars t.data)

/-- The traversal loop of `resolveJSONPointer`. -/
def ptrLoop : Json → List String → Except String Json
  | cur, [] => .ok cur
  | cur, t :: rest =>
    let tok := unescapeTok t
    match cur with
    | .obj fields =>
      match getKey fields tok with
      | some nxt => ptrLoop nxt rest
      | none => .error (("pointer not found: ") ++ tok)
    | .arr xs =>
      if tok == "-" then .error ("pointer '-' is not valid for array lookup")
      else
        match strAtoi tok with
        | some i =>
          if i < 0 || (xs.length : Int) ≤ i then
            .error (("array index out of range: ") ++ tok)
          else
            match xs.get? i.toNat with
            | some x => ptrLoop x rest
            | none => .error (("array index out of range: ") ++ tok)
        | none => .error (("array index out of range: ") ++ tok)
    | _ => .error ("pointer traversed non-container")

/-- `resolveJSONPointer` from part_003. -/
def resolveJSONPointer (doc : Json) (fragment : String) : Except String Json :=
  if fragment == "" then .ok doc
  else if !(strStartsWith fragment ("/")) then
    .error ("unsupported fragment (must be JSON Pointer)")
  else ptrLoop doc (((splitChars '/' fragment.data).map String.mk).drop 1)

/-- Split a character list at the first occurrence of the separator
sequence, dropping the separator. -/
def splitSub (sep : List Char) : List Char → Option (List Char × List Char)
  | [] => if sep.isEmpty then some ([], []) else none
  | x :: xs =>
    if sep.isPrefixOf (x :: xs) then some ([], (x :: xs).drop sep.length)
    else
      match splitSub sep xs with
      | some r => some (x :: r.1, r.2)
      | none => none

/-- A URI reference, modelled for the reference shapes the profile uses:
`#frag`, `relative/path#frag` and `scheme://host/path#frag`.  `net/url`
parsing of such well-formed references does not fail. -/
structure URIRef where
  pre : String
  frag : String
  hadHash : Bool

/-- Parse a reference by splitting at the first `#`. -/
def parseURI (ref : String) : URIRef :=
  match splitAtChar '#' ref.data with
  | none => URIRef.mk ref ("") false
  | some r => URIRef.mk (String.mk r.1) (String.mk r.2) true

/-- `u.Scheme`: the part before `://`, empty when there is none. -/
def uriScheme (u : URIRef) : String :=
  match splitSub (("://").data) u.pre.data with
  | some r => String.mk r.1
  | none => ""

/-- `u.Path`: for an absolute reference, the part of the authority
section from the first `/`; otherwise the whole pre-fragment text. -/
def uriPath (u : URIRef) : String :=
  match splitSub (("://").data) u.pre.data with
  | some r =>
    match splitAtChar '/' r.2 with
    | some rr => String.mk ('/' :: rr.2)
    | none => ""
  | none => u.pre

/-- `u.IsAbs()`. -/
def uriIsAbs (u : URIRef) : Bool :=
  uriScheme u != ""

/-- `u.String()`: re-serialize; for references that were not rewritten by
base resolution this is the original text. -/
def uriString (u : URIRef) : String :=
  u.pre ++ (if u.hadHash then ("#") ++ u.frag else "")

/-- Modelled from the spec: `base.ResolveReference(u)` resolves a relative
reference against the base URL's directory (`net/url` is not part of this
repository).  No claim exercises a configured base. -/
def resolveAgainstBase (base : URIRef) (u : URIRef) : URIRef :=
  let dir :=
    match (splitAtChar '/' base.pre.data.reverse) with
    | some r => String.mk (r.2.reverse ++ ['/'])
    | none => base.pre ++ ("/")
  URIRef.mk (dir ++ u.pre) u.frag u.hadHash

/-- Normalizer configuration (part_004): the root document for
fragment-only pointers, an optional base URL, and an optional fetcher.
The fetcher is modelled as the composition of `Fetcher.Fetch` with
`decodeJSON` — it maps the serialized URL to a decoded document or an
error message. -/
structure NormCfg where
  root : Json
  base : Option URIRef
  fetch : Option (String → Except String Json)

/-- `resolveRef` (part_004) once the reference is fully resolved: cycle
check against the active-reference stack, document selection
(fragment-only against the root, otherwise through the fetcher), and
pointer traversal.  On success it returns the value together with the key
the caller pushes onto the stack while recursing. -/
def resolveRefAt (cfg : NormCfg) (stack : List String) (ref path : String)
    (u : URIRef) : Except Err (Json × String) :=
  let key := uriString u
  if stack.contains key then
    .error (.refError (pathOrRoot path) ref ("cycle detected"))
  else
    let docE : Except Err Json :=
      if uriScheme u == "" && uriPath u == "" &&
          (u.frag != "" || strStartsWith ref ("#")) then
        .ok cfg.root
      else
        match cfg.fetch with
        | none => .error (.refError (pathOrRoot path) ref
            ("external $ref unsupported (no fetcher)"))
        | some f =>
          match f key with
          | .ok d => .ok d
          | .error msg => .error (.refError (pathOrRoot path) ref msg)
    match docE with
    | .error e => .error e
    | .ok doc =>
      match resolveJSONPointer doc u.frag with
      | .error msg => .error (.refError (pathOrRoot path) ref msg)
      | .ok v => .ok (v, key)

/-- `resolveRef` from part_004: parse, resolve relative references against
the base (failing without one), then resolve. -/
def resolveRef (cfg : NormCfg) (stack : List String) (ref path : String) :
    Except Err (Json × String) :=
  let u0 := parseURI ref
  if !(uriIsAbs u0) && uriPath u0 != "" then
    match cfg.base with
    | none => .error (.refError (pathOrRoot path) ref ("relative $ref with no base"))
    | some b => resolveRefAt cfg stack ref path (resolveAgainstBase b u0)
  else resolveRefAt cfg stack ref path u0

/-- `normalizeType` from part_003: a non-blank string becomes a singleton,
an array of non-blank strings is deduplicated and sorted ascending, and
anything else is an error. -/
def collectTypeStrs : List Json → Option (List String)
  | [] => some []
  | .str s :: rest =>
    if trimWS s == ("") then none
    else (collectTypeStrs rest).map (fun l => s :: l)
  | _ => none

def normalizeType (v : Json) : Except String (List String) :=
  match v with
  | .str x => if trimWS x == ("") then .error ("must not be empty") else .ok [x]
  | .arr xs =>
    match collectTypeStrs xs with
    | none => .error ("must be array of non-empty strings")
    | some l => .ok (sortDedup l)
  | _ => .error ("must be string or array of strings")

/-- `normalizeStringSet` from part_003. -/
def normalizeStringSet (v : Json) : Except String (List String) :=
  match asSlice (some v) with
  | none => .error ("must be array")
  | some xs =>
    match collectTypeStrs xs with
    | none => .error ("must contain only non-empty strings")
    | some l => .ok (sortDedup l)

/-- `unionStringSlices` from part_005 (set union, sorted ascending). -/
def unionStringSlices (a b : List String) : List String :=
  sortDedup (a ++ b)

/-- `intersectTypeSlices` from part_005: plain set intersection of the
non-numeric types, and the `integer ⊆ number` classification for the
numeric ones; sorted ascending. -/
def intersectTypeSlices (a b : List String) : List String :=
  let aNum := a.contains ("number")
  let bNum := b.contains ("number")
  let aInt := a.contains ("integer")
  let bInt := b.contains ("integer")
  let nonNumeric := a.filter (fun s =>
    s != "number" && s != "integer" && b.contains s)
  let numerics : List String :=
    if (aNum || aInt) && (bNum || bInt) then
      if aNum && bNum then [("number")] else [("integer")]
    else []
  sortDedup (nonNumeric ++ numerics)

/-- `intersectValues` from part_005: elements of `a` whose canonical key
occurs in `b`, in `a`'s order. -/
def intersectValues (a b : List Json) : List Json :=
  a.filter (fun v => b.any (fun w => canonicalKey w == canonicalKey v))

/-- The `type` step of `mergeAllOfBranch`. -/
def mergeTypeStep (acc branch : JObj) (path : String) : Except Err JObj :=
  match getKey branch ("type") with
  | none => .ok acc
  | some bt =>
    match normalizeType bt with
    | .error msg => .error (.shapeError (path ++ (".type: ") ++ msg))
    | .ok bTypes =>
      match getKey acc ("type") with
      | none => .ok (setKey acc ("type") (.arr (bTypes.map .str)))
      | some at0 =>
        match normalizeType at0 with
        | .error msg => .error (.shapeError (path ++ (".type: ") ++ msg))
        | .ok aTypes =>
          let inter := intersectTypeSlices aTypes bTypes
          if inter.isEmpty then
            .error (.schemaError path ("allOf type intersection is empty"))
          else .ok (setKey acc ("type") (.arr (inter.map .str)))

/-- The `required` step of `mergeAllOfBranch` (set union). -/
def mergeReqStep (acc branch : JObj) (path : String) : Except Err JObj :=
  match getKey branch ("required") with
  | none => .ok acc
  | some br =>
    match normalizeStringSet br with
    | .error msg => .error (.shapeError (path ++ (".required: ") ++ msg))
    | .ok bReq =>
      match getKey acc ("required") with
      | none => .ok (setKey acc ("required") (.arr (bReq.map .str)))
      | some ar =>
        match normalizeStringSet ar with
        | .error msg => .error (.shapeError (path ++ (".required: ") ++ msg))
        | .ok aReq =>
          .ok (setKey acc ("required") (.arr ((unionStringSlices aReq bReq).map .str)))

/-- The `enum` step of `mergeAllOfBranch` (canonical intersection). -/
def mergeEnumStep (acc branch : JObj) (path : String) : Except Err JObj :=
  match getKey branch ("enum") with
  | none => .ok acc
  | some be =>
    match asSlice (some be) with
    | none => .error (.shapeError (path ++ (".enum: must be array")))
    | some bEnum =>
      match getKey acc ("enum") with
      | none => .ok (setKey acc ("enum") (.arr bEnum))
      | some ae =>
        let aEnum := (asSlice (some ae)).getD []
        let inter := intersectValues aEnum bEnum
        if inter.isEmpty then
          .error (.schemaError path ("allOf enum intersection is empty"))
        else .ok (setKey acc ("enum") (.arr inter))

/-- The `const` step of `mergeAllOfBranch`. -/
def mergeConstStep (acc branch : JObj) (path : String) : Except Err JObj :=
  match getKey branch ("const") with
  | none => .ok acc
  | some bc =>
    match getKey acc ("const") with
    | none => .ok (setKey acc ("const") bc)
    | some ac =>
      if canonicalKey ac != canonicalKey bc then
        .error (.schemaError path ("allOf const conflict"))
      else .ok acc

/-- One lower-bound keyword of the bounds step: keep the maximum. -/
def mergeLoKey (acc branch : JObj) (k : String) : JObj :=
  match getKey branch k with
  | none => acc
  | some bv =>
    match getKey acc k with
    | none => setKey acc k bv
    | some av => if decLt (toFloat64 av) (toFloat64 bv) then setKey acc k bv else acc

/-- One upper-bound keyword of the bounds step: keep the minimum. -/
def mergeHiKey (acc branch : JObj) (k : String) : JObj :=
  match getKey branch k with
  | none => acc
  | some bv =>
    match getKey acc k with
    | none => setKey acc k bv
    | some av => if decLt (toFloat64 bv) (toFloat64 av) then setKey acc k bv else acc

/-- The bounds step of `mergeAllOfBranch`: most restrictive wins. -/
def mergeBoundsStep (acc branch : JObj) : JObj :=
  let lo := [("minimum"), ("exclusiveMinimum"), ("minLength"), ("minItems")].foldl
    (fun a k => mergeLoKey a branch k) acc
  [("maximum"), ("exclusiveMaximum"), ("maxLength"), ("maxItems")].foldl
    (fun a k => mergeHiKey a branch k) lo

mutual

/-- `mergeAllOfBranch` from part_005: merge one `allOf` branch into the
accumulator (`cloneMap` copies are value semantics here). -/
def mergeAllOfBranch (fuel : Nat) (acc branch : JObj) (path : String) :
    Except Err JObj :=
  match fuel with
  | 0 => .error .fuelOut
  | Nat.succ f =>
    match mergeTypeStep acc branch path with
    | .error e => .error e
    | .ok a1 =>
      match
        ((match getKey branch ("properties") with
         | none => .ok a1
         | some bp =>
           match asMap (some bp) with
           | none => .error (Err.shapeError (path ++ (".properties: must be object")))
           | some bProps =>
             let aProps := (asMap (getKey a1 ("properties"))).getD []
             match mergePropsLoop f aProps bProps path with
             | .error e => .error e
             | .ok nProps => .ok (setKey a1 ("properties") (.obj nProps)))
         : Except Err JObj) with
      | .error e => .error e
      | .ok a2 =>
        match mergeReqStep a2 branch path with
        | .error e => .error e
        | .ok a3 =>
          match
            ((match getKey branch ("additionalProperties") with
             | none => .ok a3
             | some (.bool bv) =>
               if !bv then .ok (setKey a3 ("additionalProperties") (.bool false))
               else if !(hasKey a3 ("additionalProperties")) then
                 .ok (setKey a3 ("additionalProperties") (.bool true))
               else .ok a3
             | some (.obj bvm) =>
               match getKey a3 ("additionalProperties") with
               | none => .ok (setKey a3 ("additionalProperties") (.obj bvm))
               | some (.bool av) =>
                 if !av then .ok a3
                 else .ok (setKey a3 ("additionalProperties") (.obj bvm))
               | some (.obj avm) =>
                 match mergeAllOfBranch f avm bvm (path ++ (".additionalProperties")) with
                 | .error e => .error e
                 | .ok merged => .ok (setKey a3 ("additionalProperties") (.obj merged))
               | some _ => .ok a3
             | some _ => .ok a3)
           : Except Err JObj) with
          | .error e => .error e
          | .ok a4 =>
            match mergeEnumStep a4 branch path with
            | .error e => .error e
            | .ok a5 =>
              match mergeConstStep a5 branch path with
              | .error e => .error e
              | .ok a6 =>
                match
                  ((match getKey branch ("items") with
                   | none => .ok a6
                   | some bi =>
                     match asMap (some bi) with
                     | none => .error (Err.shapeError (path ++ (".items: must be object")))
                     | some bItems =>
                       match getKey a6 ("items") with
                       | none => .ok (setKey a6 ("items") bi)
                       | some ai =>
                         let aItems := (asMap (some ai)).getD []
                         match mergeAllOfBranch f aItems bItems (path ++ (".items")) with
                         | .error e => .error e
                         | .ok merged => .ok (setKey a6 ("items") (.obj merged)))
                 : Except Err JObj) with
                | .error e => .error e
                | .ok a7 => .ok (mergeBoundsStep a7 branch)

/-- The overlapping-properties loop of `mergeAllOfBranch`. -/
def mergePropsLoop (fuel : Nat) (aProps : JObj) (l : List (String × Json))
    (path : String) : Except Err JObj :=
  match fuel with
  | 0 => .error .fuelOut
  | Nat.succ f =>
    match l with
    | [] => .ok aProps
    | kv :: rest =>
      match getKey aProps kv.1 with
      | none => mergePropsLoop f (setKey aProps kv.1 kv.2) rest path
      | some av =>
        let avm := (asMap (some av)).getD []
        let bvm := (asMap (some kv.2)).getD []
        match mergeAllOfBranch f avm bvm
            (path ++ (".properties[\"") ++ kv.1 ++ ("\"]")) with
        | .error e => .error e
        | .ok merged => mergePropsLoop f (setKey aProps kv.1 (.obj merged)) rest path

end

/-- `allOf` flattening (part_005): gate each branch, reject unions inside
`allOf`, resolve a branch-level `$ref` (popping the cycle key right away),
and fold the branches into an accumulator. -/
def stripKeys (o : JObj) : JObj :=
  o.filter (fun p => !(annotKeys.contains p.1) && p.1 != "$defs")

/-- The non-blank-string `$ref` of a schema, if any (the condition of the
inlining branch of `normalizeAt`). -/
def refStrOf (schema : JObj) : Option String :=
  match getKey schema ("$ref") with
  | some (.str r) => if trimWS r != ("") then some r else none
  | _ => none

/-- The `type` step of `normalizeAt`. -/
def normTypeStep (o : JObj) (path : String) : Except Err JObj :=
  match getKey o ("type") with
  | none => .ok o
  | some tv =>
    match normalizeType tv with
    | .error msg => .error (.shapeError (pathOrRoot path ++ (".type: ") ++ msg))
    | .ok types => .ok (setKey o ("type") (.arr (types.map .str)))

/-- The `required` step of `normalizeAt`. -/
def normReqStep (o : JObj) (path : String) : Except Err JObj :=
  match getKey o ("required") with
  | none => .ok o
  | some rv =>
    match normalizeStringSet rv with
    | .error msg => .error (.shapeError (pathOrRoot path ++ (".required: ") ++ msg))
    | .ok req => .ok (setKey o ("required") (.arr (req.map .str)))

/-- Render each union variant's canonical form for sorting. -/
def canonVariants : List JObj → Except Unit (List (List Char × JObj))
  | [] => .ok []
  | v :: rest =>
    match canon (.obj v) with
    | .error er => .error er
    | .ok c =>
      match canonVariants rest with
      | .error er => .error er
      | .ok cs => .ok ((c, v) :: cs)

mutual

/-- `normalizeAt` from part_004. -/
def normalizeAtF (fuel : Nat) (cfg : NormCfg) (stack : List String)
    (schema : JObj) (path : String) : Except Err JObj :=
  match fuel with
  | 0 => .error .fuelOut
  | Nat.succ f =>
    match checkProfile schema path with
    | some e => .error e
    | none =>
      match refStrOf schema with
      | some r =>
        match resolveRef cfg stack r path with
        | .error e => .error e
        | .ok rv =>
          match asMap (some rv.1) with
          | none => .error (.refError path r ("resolved $ref is not an object"))
          | some rm => normalizeAtF f cfg (rv.2 :: stack) rm path
      | none =>
        let out0 := stripKeys schema
        match getKey out0 ("allOf") with
        | some a =>
          match flattenAllOf f cfg stack a path with
          | .error e => .error e
          | .ok merged => normalizeAtF f cfg stack merged path
        | none =>
          match normTypeStep out0 path with
          | .error e => .error e
          | .ok o1 =>
            match normReqStep o1 path with
            | .error e => .error e
            | .ok o2 =>
              match normPropsStep f cfg stack o2 path with
              | .error e => .error e
              | .ok o3 =>
                match normAPStep f cfg stack o3 path with
                | .error e => .error e
                | .ok o4 =>
                  match normItemsStep f cfg stack o4 path with
                  | .error e => .error e
                  | .ok o5 =>
                    match normUnionStep f cfg stack o5 path ("oneOf") with
                    | .error e => .error e
                    | .ok o6 => normUnionStep f cfg stack o6 path ("anyOf")

/-- The `properties` recursion of `normalizeAt`. -/
def normPropsStep (fuel : Nat) (cfg : NormCfg) (stack : List String)
    (o : JObj) (path : String) : Except Err JObj :=
  match fuel with
  | 0 => .error .fuelOut
  | Nat.succ f =>
    match getKey o ("properties") with
    | none => .ok o
    | some pv =>
      match asMap (some pv) with
      | none => .error (.shapeError (pathOrRoot path ++ (".properties: must be object")))
      | some props =>
        match normPropsLoop f cfg stack props path with
        | .error e => .error e
        | .ok nm => .ok (setKey o ("properties") (.obj nm))

/-- Normalize each property schema. -/
def normPropsLoop (fuel : Nat) (cfg : NormCfg) (stack : List String)
    (l : List (String × Json)) (path : String) :
    Except Err (List (String × Json)) :=
  match fuel with
  | 0 => .error .fuelOut
  | Nat.succ f =>
    match l with
    | [] => .ok []
    | kv :: rest =>
      match asMap (some kv.2) with
      | none => .error (.shapeError (pathOrRoot path ++ (".properties[\"") ++ kv.1 ++
          ("\"]: must be object")))
      | some vm =>
        match normalizeAtF f cfg stack vm
            (ptrJoin path (("properties[\"") ++ kv.1 ++ ("\"]"))) with
        | .error e => .error e
        | .ok nv =>
          match normPropsLoop f cfg stack rest path with
          | .error e => .error e
          | .ok nrest => .ok ((kv.1, Json.obj nv) :: nrest)

/-- The `additionalProperties` recursion of `normalizeAt`. -/
def normAPStep (fuel : Nat) (cfg : NormCfg) (stack : List String)
    (o : JObj) (path : String) : Except Err JObj :=
  match fuel with
  | 0 => .error .fuelOut
  | Nat.succ f =>
    match getKey o ("additionalProperties") with
    | none => .ok o
    | some (.bool b) => .ok (setKey o ("additionalProperties") (.bool b))
    | some (.obj m) =>
      match normalizeAtF f cfg stack m (ptrJoin path ("additionalProperties")) with
      | .error e => .error e
      | .ok nv => .ok (setKey o ("additionalProperties") (.obj nv))
    | some _ =>
      .error (.shapeError (pathOrRoot path ++
        (".additionalProperties: must be boolean or object")))

/-- The `items` recursion of `normalizeAt`. -/
def normItemsStep (fuel : Nat) (cfg : NormCfg) (stack : List String)
    (o : JObj) (path : String) : Except Err JObj :=
  match fuel with
  | 0 => .error .fuelOut
  | Nat.succ f =>
    match getKey o ("items") with
    | none => .ok o
    | some iv =>
      match asMap (some iv) with
      | none => .error (.shapeError (pathOrRoot path ++ (".items: must be object")))
      | some im =>
        match normalizeAtF f cfg stack im (ptrJoin path ("items")) with
        | .error e => .error e
        | .ok nv => .ok (setKey o ("items") (.obj nv))

/-- The union (`oneOf`/`anyOf`) recursion of `normalizeAt`: normalize each
variant, then sort the variants ascending by canonical JSON form. -/
def normUnionStep (fuel : Nat) (cfg : NormCfg) (stack : List String)
    (o : JObj) (path : String) (k : String) : Except Err JObj :=
  match fuel with
  | 0 => .error .fuelOut
  | Nat.succ f =>
    match getKey o k with
    | none => .ok o
    | some u =>
      match asSlice (some u) with
      | none => .error (.shapeError (pathOrRoot path ++ (".") ++ k ++ (": must be array")))
      | some arr =>
        match normVariantsLoop f cfg stack arr path k with
        | .error e => .error e
        | .ok variants =>
          match canonVariants variants with
          | .error _ => .error (.shapeError (pathOrRoot path ++ (".") ++ k ++
              (": canonicalize variant")))
          | .ok scored =>
            let sorted := sortBy (fun a b => chrLt a.1 b.1) scored
            .ok (setKey o k (.arr (sorted.map (fun p => Json.obj p.2))))

/-- Normalize each union variant. -/
def normVariantsLoop (fuel : Nat) (cfg : NormCfg) (stack : List String)
    (l : List Json) (path : String) (k : String) : Except Err (List JObj) :=
  match fuel with
  | 0 => .error .fuelOut
  | Nat.succ f =>
    match l with
    | [] => .ok []
    | item :: rest =>
      match asMap (some item) with
      | none => .error (.shapeError (pathOrRoot path ++ (".") ++ k ++
          ("[]: must be object")))
      | some m =>
        match normalizeAtF f cfg stack m (ptrJoin path (k ++ ("[]"))) with
        | .error e => .error e
        | .ok nv =>
          match normVariantsLoop f cfg stack rest path k with
          | .error e => .error e
          | .ok nrest => .ok (nv :: nrest)

/-- `flattenAllOf` from part_005. -/
def flattenAllOf (fuel : Nat) (cfg : NormCfg) (stack : List String)
    (allOfVal : Json) (path : String) : Except Err JObj :=
  match fuel with
  | 0 => .error .fuelOut
  | Nat.succ f =>
    match asSlice (some allOfVal) with
    | none => .error (.shapeError (pathOrRoot path ++ (".allOf: must be array")))
    | some arr =>
      if arr.isEmpty then .ok []
      else flattenLoop f cfg stack arr 0 [] path

/-- The branch loop of `flattenAllOf`. -/
def flattenLoop (fuel : Nat) (cfg : NormCfg) (stack : List String)
    (l : List Json) (idx : Nat) (merged : JObj) (path : String) :
    Except Err JObj :=
  match fuel with
  | 0 => .error .fuelOut
  | Nat.succ f =>
    match l with
    | [] => .ok merged
    | item :: rest =>
      match asMap (some item) with
      | none => .error (.shapeError (pathOrRoot path ++ (".allOf[") ++
          toString idx ++ ("]: must be object")))
      | some branch0 =>
        let branchPath := ptrJoin path (("allOf[") ++ toString idx ++ ("]"))
        match checkProfile branch0 branchPath with
        | some e => .error e
        | none =>
          if hasKey branch0 ("oneOf") then
            .error (.outsideProfile branchPath ("oneOf inside allOf"))
          else if hasKey branch0 ("anyOf") then
            .error (.outsideProfile branchPath ("anyOf inside allOf"))
          else
            match
              ((match refStrOf branch0 with
                | some r =>
                  match resolveRef cfg stack r branchPath with
                  | .error e => .error e
                  | .ok rv =>
                    match asMap (some rv.1) with
                    | some rm => .ok rm
                    | none => .error (Err.refError branchPath r
                        ("resolved $ref is not an object"))
                | none => .ok branch0)
              : Except Err JObj) with
            | .error e => .error e
            | .ok branch =>
              match mergeAllOfBranch f merged branch branchPath with
              | .error e => .error e
              | .ok m2 => flattenLoop f cfg stack rest (idx + 1) m2 path

end

/-- `Normalize` from part_004: fresh cycle stack, then `normalizeAt`. -/
def Normalize (fuel : Nat) (cfg : NormCfg) (schema : JObj) : Except Err JObj :=
  normalizeAtF fuel cfg [] schema ("")

/-- `InputCompatible` from part_004: normalize both sides with fresh cycle
state, then apply the input rules (`inputCompatible` treats a Top
candidate as always compatible). -/
def InputCompatibleF (fuel : Nat) (cfg : NormCfg) (target candidate : JObj) :
    Except Err Bool :=
  match normalizeAtF fuel cfg [] target ("") with
  | .error e => .error e
  | .ok ti =>
    match normalizeAtF fuel cfg [] candidate ("") with
    | .error e => .error e
    | .ok tc =>
      if tc.isEmpty then .ok true else compatF fuel ti tc true

/-- `OutputCompatible` from part_004: normalize both sides, then apply the
output rules (`outputCompatible` requires a Top target for a Top
candidate). -/
def OutputCompatibleF (fuel : Nat) (cfg : NormCfg) (target candidate : JObj) :
    Except Err Bool :=
  match normalizeAtF fuel cfg [] target ("") with
  | .error e => .error e
  | .ok ti =>
    match normalizeAtF fuel cfg [] candidate ("") with
    | .error e => .error e
    | .ok tc =>
      if tc.isEmpty then .ok ti.isEmpty else compatF fuel ti tc false

/-- A normalizer with an empty root document and no base or fetcher. -/
def cfg0 : NormCfg := NormCfg.mk (Json.obj []) none none

/-- `decLt` is irreflexive. -/
theorem decLt_self (v : Dec) : decLt v v = false := by
  simp [decLt, decScale]

/-- Claim C1: for target `{type:number, minimum:0}` and candidate
`{type:number, exclusiveMinimum:0}`, `InputCompatible` is `false` and
`OutputCompatible` is `true`; at equal bound values an exclusive lower
bound is treated as strictly stricter (higher) than an inclusive one. -/
theorem claimC1 :
    InputCompatibleF 50 cfg0
      [(("type"), Json.str ("number")), (("minimum"), Json.num 0 0)]
      [(("type"), Json.str ("number")), (("exclusiveMinimum"), Json.num 0 0)] = .ok false ∧
    OutputCompatibleF 50 cfg0
      [(("type"), Json.str ("number")), (("minimum"), Json.num 0 0)]
      [(("type"), Json.str ("number")), (("exclusiveMinimum"), Json.num 0 0)] = .ok true ∧
    (∀ v : Dec, lowerBoundLessOrEqual v true v false = false ∧
      lowerBoundGreaterOrEqual v true v false = true) := by
  refine ⟨by rfl, by rfl, ?_⟩
  intro v
  constructor
  · simp [lowerBoundLessOrEqual, decLt_self]
  · simp [lowerBoundGreaterOrEqual, decLt_self]

/-- Claim C2: the type-set rule is directional with `integer ⊆ number`:
`InputCompatible({type:integer}, {type:number})` is `true` while
`OutputCompatible({type:integer}, {type:number})` is `false`. -/
theorem claimC2 :
    InputCompatibleF 50 cfg0 [(("type"), Json.str ("integer"))]
      [(("type"), Json.str ("number"))] = .ok true ∧
    OutputCompatibleF 50 cfg0 [(("type"), Json.str ("integer"))]
      [(("type"), Json.str ("number"))] = .ok false := by
  exact ⟨by rfl, by rfl⟩

/-- A root document whose member `a` is itself `{"$ref": "#/a"}`. -/
def cycCfg : NormCfg :=
  NormCfg.mk (Json.obj [(("a"), Json.obj [(("$ref"), Json.str ("#/a"))])]) none none

/-- Claim C5: reference resolution fails with a `RefError` whose cause
distinguishes the case: a relative `$ref` with no base, an external `$ref`
with no fetcher (the cause contains "external $ref unsupported"), and a
`#/a` self-cycle with cause "cycle detected". -/
theorem claimC5 :
    Normalize 50 cfg0 [(("$ref"), Json.str ("other.json"))] =
      .error (.refError ("<root>") ("other.json") ("relative $ref with no base")) ∧
    Normalize 50 cfg0 [(("$ref"), Json.str ("http://example.com/s.json#/a"))] =
      .error (.refError ("<root>") ("http://example.com/s.json#/a")
        ("external $ref unsupported (no fetcher)")) ∧
    strStartsWith ("external $ref unsupported (no fetcher)")
      ("external $ref unsupported") = true ∧
    Normalize 50 cycCfg [(("$ref"), Json.str ("#/a"))] =
      .error (.refError ("<root>") ("#/a") ("cycle detected")) := by
  exact ⟨by rfl, by rfl, by rfl, by rfl⟩

/-- Claim C6: `allOf` type intersection treats `integer` as narrower than
`number` (number∩number = number, number∩integer = integer,
integer∩integer = integer), intersects non-numeric types as plain sets,
and an empty total intersection is a `SchemaError`:
`{allOf:[{type:string},{type:number}]}` fails to normalize. -/
theorem claimC6 :
    intersectTypeSlices [("number")] [("number")] = [("number")] ∧
    intersectTypeSlices [("number")] [("integer")] = [("integer")] ∧
    intersectTypeSlices [("integer")] [("number")] = [("integer")] ∧
    intersectTypeSlices [("integer")] [("integer")] = [("integer")] ∧
    (∀ (a b : List String) (s : String), s ≠ ("number") → s ≠ ("integer") →
      (s ∈ intersectTypeSlices a b ↔ s ∈ a ∧ s ∈ b)) ∧
    Normalize 50 cfg0 [(("allOf"), Json.arr [Json.obj [(("type"), Json.str ("string"))],
      Json.obj [(("type"), Json.str ("number"))]])] =
      .error (.schemaError ("allOf[1]") ("allOf type intersection is empty")) := by
  refine ⟨by rfl, by rfl, by rfl, by rfl, ?_, by rfl⟩
  intro a b s hn hi
  unfold intersectTypeSlices
  rw [mem_sortDedup, List.mem_append]
  constructor
  · intro h
    rcases h with h | h
    · rcases List.mem_filter.mp h with ⟨ha, hp⟩
      refine ⟨ha, ?_⟩
      simp only [Bool.and_eq_true] at hp
      have := hp.2
      simpa [List.contains] using this
    · exfalso
      cases hc : ((a.contains ("number") || a.contains ("integer")) &&
          (b.contains ("number") || b.contains ("integer"))) with
      | false =>
        simp only [hc, Bool.false_eq_true, if_false] at h
        simp at h
      | true =>
        simp only [hc, if_true] at h
        cases hb : (a.contains ("number") && b.contains ("number")) with
        | true =>
          simp only [hb, if_true] at h
          rcases List.mem_singleton.mp h with rfl
          exact hn rfl
        | false =>
          simp only [hb, Bool.false_eq_true, if_false] at h
          rcases List.mem_singleton.mp h with rfl
          exact hi rfl
  · intro h
    left
    refine List.mem_filter.mpr ⟨h.1, ?_⟩
    simp only [Bool.and_eq_true]
    refine ⟨⟨?_, ?_⟩, ?_⟩
    · simpa using hn
    · simpa using hi
    · simpa [List.contains] using h.2

/-- Witness for the plain-set clause of claim C6 at a concrete instance. -/
theorem claimC6_witness :
    ("string") ∈ intersectTypeSlices [("string")] [("string"), ("number")] ↔
      (("string") ∈ [("string")] ∧ ("string") ∈ [("string"), ("number")]) :=
  claimC6.2.2.2.2.1 [("string")] [("string"), ("number")] ("string")
    (by decide) (by decide)

theorem hasType_not_empty {t : JObj} {s : String} (h : hasType t s = true) :
    t.isEmpty = false := by
  cases t with
  | nil => simp [hasType, typeSet, getKey] at h
  | cons a r => rfl

theorem seqCompat_eq_ok_true (r : Except Err Bool) (k : Unit → Except Err Bool) :
    seqCompat r k = .ok true ↔ (r = .ok true ∧ k () = .ok true) := by
  cases r with
  | error e => simp [seqCompat]
  | ok b => cases b <;> simp [seqCompat]

/-- If the input-direction numeric-bounds check passes, then whenever both
sides declare a bound of a kind, the candidate's effective bound is
permissive enough. -/
theorem compatNumericBounds_input_true {t c : JObj}
    (hnb : compatNumericBounds t c true = true) :
    ((hasKey t ("minimum") || hasKey t ("exclusiveMinimum")) = true →
     (hasKey c ("minimum") || hasKey c ("exclusiveMinimum")) = true →
     lowerBoundLessOrEqual (effectiveLowerBound c).1 (effectiveLowerBound c).2
       (effectiveLowerBound t).1 (effectiveLowerBound t).2 = true) ∧
    ((hasKey t ("maximum") || hasKey t ("exclusiveMaximum")) = true →
     (hasKey c ("maximum") || hasKey c ("exclusiveMaximum")) = true →
     upperBoundGreaterOrEqual (effectiveUpperBound c).1 (effectiveUpperBound c).2
       (effectiveUpperBound t).1 (effectiveUpperBound t).2 = true) := by
  unfold compatNumericBounds at hnb
  simp only [if_true] at hnb
  constructor
  · intro ht hc
    cases hlb : lowerBoundLessOrEqual (effectiveLowerBound c).1 (effectiveLowerBound c).2
        (effectiveLowerBound t).1 (effectiveLowerBound t).2 with
    | true => rfl
    | false =>
      rw [ht, hc, hlb] at hnb
      simp at hnb
  · intro ht hc
    cases hub : upperBoundGreaterOrEqual (effectiveUpperBound c).1 (effectiveUpperBound c).2
        (effectiveUpperBound t).1 (effectiveUpperBound t).2 with
    | true => rfl
    | false =>
      rw [ht, hc, hub] at hnb
      split at hnb
      · simp at hnb
      · simp at hnb

/-- Claim C4 counterexample: for target `{type:number}` (no bounds) and
candidate `{type:number, minimum:5}`, `InputCompatible` returns `true`
although the candidate declares a lower bound while the target's effective
lower bound is unconstrained (−∞), so the claimed rule
"candidate's lower bound ≤ target's, absent bound = −∞" demands `false`:
a candidate bound with no matching target bound is never checked. -/
theorem claimC4_counterexample :
    InputCompatibleF 50 cfg0 [(("type"), Json.str ("number"))]
      [(("type"), Json.str ("number")), (("minimum"), Json.num 5 0)] = .ok true ∧
    (hasKey [(("type"), Json.str ("number"))] ("minimum") ||
      hasKey [(("type"), Json.str ("number"))] ("exclusiveMinimum")) = false ∧
    hasKey [(("type"), Json.str ("number")), (("minimum"), Json.num 5 0)]
      ("minimum") = true := by
  exact ⟨by rfl, by rfl, by rfl⟩

/-- Claim C4 (amended): for input compatibility between two normalized
schemas whose type sets both contain "number", `compat` returns true only
if, whenever both sides declare a lower bound, the candidate's effective
lower bound is ≤ the target's, and whenever both sides declare an upper
bound, the candidate's effective upper bound is ≥ the target's, under the
exclusive-bound tie-break order; a bound declared by only one side is not
checked. -/
theorem claimC4 (fuel : Nat) (t c : JObj)
    (htn : hasType t ("number") = true) (hcn : hasType c ("number") = true)
    (hok : compatF fuel t c true = .ok true) :
    ((hasKey t ("minimum") || hasKey t ("exclusiveMinimum")) = true →
     (hasKey c ("minimum") || hasKey c ("exclusiveMinimum")) = true →
     lowerBoundLessOrEqual (effectiveLowerBound c).1 (effectiveLowerBound c).2
       (effectiveLowerBound t).1 (effectiveLowerBound t).2 = true) ∧
    ((hasKey t ("maximum") || hasKey t ("exclusiveMaximum")) = true →
     (hasKey c ("maximum") || hasKey c ("exclusiveMaximum")) = true →
     upperBoundGreaterOrEqual (effectiveUpperBound c).1 (effectiveUpperBound c).2
       (effectiveUpperBound t).1 (effectiveUpperBound t).2 = true) := by
  cases fuel with
  | zero => simp [compatF] at hok
  | succ f =>
    rw [compatF] at hok
    rw [hasType_not_empty htn, hasType_not_empty hcn] at hok
    simp only [Bool.false_eq_true, if_false] at hok
    cases hnb : compatNumericBounds t c true with
    | true => exact compatNumericBounds_input_true hnb
    | false =>
      exfalso
      rw [hnb, htn] at hok
      split at hok
      · split at hok
        · simp at hok
        · split at hok
          · simp at hok
          · rw [seqCompat_eq_ok_true] at hok
            have hok2 := hok.2
            simp only at hok2
            rw [seqCompat_eq_ok_true] at hok2
            have hok3 := hok2.2
            simp at hok3
      · rename_i hT
        exact hT trivial

/-- Witness for claim C4 at a concrete pair of normalized number schemas
with equal inclusive lower bounds. -/
theorem claimC4_witness :
    ((hasKey [(("type"), Json.arr [Json.str ("number")]), (("minimum"), Json.num 0 0)]
        ("minimum") ||
      hasKey [(("type"), Json.arr [Json.str ("number")]), (("minimum"), Json.num 0 0)]
        ("exclusiveMinimum")) = true →
     (hasKey [(("type"), Json.arr [Json.str ("number")]), (("minimum"), Json.num 0 0)]
        ("minimum") ||
      hasKey [(("type"), Json.arr [Json.str ("number")]), (("minimum"), Json.num 0 0)]
        ("exclusiveMinimum")) = true →
     lowerBoundLessOrEqual
       (effectiveLowerBound [(("type"), Json.arr [Json.str ("number")]),
         (("minimum"), Json.num 0 0)]).1
       (effectiveLowerBound [(("type"), Json.arr [Json.str ("number")]),
         (("minimum"), Json.num 0 0)]).2
       (effectiveLowerBound [(("type"), Json.arr [Json.str ("number")]),
         (("minimum"), Json.num 0 0)]).1
       (effectiveLowerBound [(("type"), Json.arr [Json.str ("number")]),
         (("minimum"), Json.num 0 0)]).2 = true) ∧
    ((hasKey [(("type"), Json.arr [Json.str ("number")]), (("minimum"), Json.num 0 0)]
        ("maximum") ||
      hasKey [(("type"), Json.arr [Json.str ("number")]), (("minimum"), Json.num 0 0)]
        ("exclusiveMaximum")) = true →
     (hasKey [(("type"), Json.arr [Json.str ("number")]), (("minimum"), Json.num 0 0)]
        ("maximum") ||
      hasKey [(("type"), Json.arr [Json.str ("number")]), (("minimum"), Json.num 0 0)]
        ("exclusiveMaximum")) = true →
     upperBoundGreaterOrEqual
       (effectiveUpperBound [(("type"), Json.arr [Json.str ("number")]),
         (("minimum"), Json.num 0 0)]).1
       (effectiveUpperBound [(("type"), Json.arr [Json.str ("number")]),
         (("minimum"), Json.num 0 0)]).2
       (effectiveUpperBound [(("type"), Json.arr [Json.str ("number")]),
         (("minimum"), Json.num 0 0)]).1
       (effectiveUpperBound [(("type"), Json.arr [Json.str ("number")]),
         (("minimum"), Json.num 0 0)]).2 = true) :=
  claimC4 5 [(("type"), Json.arr [Json.str ("number")]), (("minimum"), Json.num 0 0)]
    [(("type"), Json.arr [Json.str ("number")]), (("minimum"), Json.num 0 0)]
    (by rfl) (by rfl) (by rfl)

theorem toFloat64_nonnum {v : Json} (hv : isNumRep v = false) :
    toFloat64 v = (0, 0) := by
  cases v <;> first | rfl | simp [isNumRep] at hv

/-- Presence of a key is unaffected by which value an assignment stores. -/
theorem hasKey_setKey_congr (o : JObj) (k q : String) (v w : Json) :
    hasKey (setKey o k v) q = hasKey (setKey o k w) q := by
  by_cases hq : q = k
  · subst hq
    rw [hasKey_setKey_same, hasKey_setKey_same]
  · rw [hasKey_setKey_ne _ _ _ _ hq, hasKey_setKey_ne _ _ _ _ hq]

theorem keyNum_setKey_nonnum (o : JObj) (k q : String) (v : Json)
    (hv : isNumRep v = false) :
    keyNum (setKey o k v) q = keyNum (setKey o k (.num 0 0)) q := by
  by_cases hq : q = k
  · subst hq
    rw [keyNum, keyNum, getKey_setKey_same, getKey_setKey_same]
    show toFloat64 v = toFloat64 (Json.num 0 0)
    rw [toFloat64_nonnum hv]
    rfl
  · rw [keyNum, keyNum, getKey_setKey_ne _ _ _ _ hq, getKey_setKey_ne _ _ _ _ hq]

theorem effectiveLowerBound_setKey_nonnum (s : JObj) (k : String) (v : Json)
    (hv : isNumRep v = false) :
    effectiveLowerBound (setKey s k v) = effectiveLowerBound (setKey s k (.num 0 0)) := by
  by_cases h1 : k = ("minimum")
  · subst h1
    unfold effectiveLowerBound
    rw [getKey_setKey_same, getKey_setKey_same,
      getKey_setKey_ne _ _ _ _ (by decide : ("exclusiveMinimum") ≠ ("minimum")),
      getKey_setKey_ne _ _ _ _ (by decide : ("exclusiveMinimum") ≠ ("minimum"))]
    cases hE : getKey s ("exclusiveMinimum") with
    | none =>
      show (toFloat64 v, false) = (toFloat64 (Json.num 0 0), false)
      rw [toFloat64_nonnum hv]
      rfl
    | some emn =>
      show (if decLe (toFloat64 v) (toFloat64 emn) = true then (toFloat64 emn, true)
          else (toFloat64 v, false)) =
        (if decLe (toFloat64 (Json.num 0 0)) (toFloat64 emn) = true then (toFloat64 emn, true)
          else (toFloat64 (Json.num 0 0), false))
      rw [toFloat64_nonnum hv]
      rfl
  · by_cases h2 : k = ("exclusiveMinimum")
    · subst h2
      unfold effectiveLowerBound
      rw [getKey_setKey_same, getKey_setKey_same,
        getKey_setKey_ne _ _ _ _ (by decide : ("minimum") ≠ ("exclusiveMinimum")),
        getKey_setKey_ne _ _ _ _ (by decide : ("minimum") ≠ ("exclusiveMinimum"))]
      cases hM : getKey s ("minimum") with
      | none =>
        show (toFloat64 v, true) = (toFloat64 (Json.num 0 0), true)
        rw [toFloat64_nonnum hv]
        rfl
      | some mn =>
        show (if decLe (toFloat64 mn) (toFloat64 v) = true then (toFloat64 v, true)
            else (toFloat64 mn, false)) =
          (if decLe (toFloat64 mn) (toFloat64 (Json.num 0 0)) = true then
            (toFloat64 (Json.num 0 0), true)
          else (toFloat64 mn, false))
        rw [toFloat64_nonnum hv]
        rfl
    · unfold effectiveLowerBound
      rw [getKey_setKey_ne _ _ _ _ (fun hh => h1 hh.symm),
        getKey_setKey_ne _ _ _ _ (fun hh => h1 hh.symm),
        getKey_setKey_ne _ _ _ _ (fun hh => h2 hh.symm),
        getKey_setKey_ne _ _ _ _ (fun hh => h2 hh.symm)]

theorem effectiveUpperBound_setKey_nonnum (s : JObj) (k : String) (v : Json)
    (hv : isNumRep v = false) :
    effectiveUpperBound (setKey s k v) = effectiveUpperBound (setKey s k (.num 0 0)) := by
  by_cases h1 : k = ("maximum")
  · subst h1
    unfold effectiveUpperBound
    rw [getKey_setKey_same, getKey_setKey_same,
      getKey_setKey_ne _ _ _ _ (by decide : ("exclusiveMaximum") ≠ ("maximum")),
      getKey_setKey_ne _ _ _ _ (by decide : ("exclusiveMaximum") ≠ ("maximum"))]
    cases hE : getKey s ("exclusiveMaximum") with
    | none =>
      show (toFloat64 v, false) = (toFloat64 (Json.num 0 0), false)
      rw [toFloat64_nonnum hv]
      rfl
    | some emx =>
      show (if decLe (toFloat64 emx) (toFloat64 v) = true then (toFloat64 emx, true)
          else (toFloat64 v, false)) =
        (if decLe (toFloat64 emx) (toFloat64 (Json.num 0 0)) = true then (toFloat64 emx, true)
          else (toFloat64 (Json.num 0 0), false))
      rw [toFloat64_nonnum hv]
      rfl
  · by_cases h2 : k = ("exclusiveMaximum")
    · subst h2
      unfold effectiveUpperBound
      rw [getKey_setKey_same, getKey_setKey_same,
        getKey_setKey_ne _ _ _ _ (by decide : ("maximum") ≠ ("exclusiveMaximum")),
        getKey_setKey_ne _ _ _ _ (by decide : ("maximum") ≠ ("exclusiveMaximum"))]
      cases hM : getKey s ("maximum") with
      | none =>
        show (toFloat64 v, true) = (toFloat64 (Json.num 0 0), true)
        rw [toFloat64_nonnum hv]
        rfl
      | some mx =>
        show (if decLe (toFloat64 v) (toFloat64 mx) = true then (toFloat64 v, true)
            else (toFloat64 mx, false)) =
          (if decLe (toFloat64 (Json.num 0 0)) (toFloat64 mx) = true then
            (toFloat64 (Json.num 0 0), true)
          else (toFloat64 mx, false))
        rw [toFloat64_nonnum hv]
        rfl
    · unfold effectiveUpperBound
      rw [getKey_setKey_ne _ _ _ _ (fun hh => h1 hh.symm),
        getKey_setKey_ne _ _ _ _ (fun hh => h1 hh.symm),
        getKey_setKey_ne _ _ _ _ (fun hh => h2 hh.symm),
        getKey_setKey_ne _ _ _ _ (fun hh => h2 hh.symm)]

theorem compatSimpleBounds_setKey_cand (t c : JObj) (inp : Bool)
    (minK maxK k : String) (v : Json) (hv : isNumRep v = false) :
    compatSimpleBounds t (setKey c k v) inp minK maxK =
      compatSimpleBounds t (setKey c k (.num 0 0)) inp minK maxK := by
  unfold compatSimpleBounds
  simp only [hasKey_setKey_congr c k _ v (.num 0 0), keyNum_setKey_nonnum c k _ v hv]

theorem compatSimpleBounds_setKey_tgt (t c : JObj) (inp : Bool)
    (minK maxK k : String) (v : Json) (hv : isNumRep v = false) :
    compatSimpleBounds (setKey t k v) c inp minK maxK =
      compatSimpleBounds (setKey t k (.num 0 0)) c inp minK maxK := by
  unfold compatSimpleBounds
  simp only [hasKey_setKey_congr t k _ v (.num 0 0), keyNum_setKey_nonnum t k _ v hv]

theorem compatNumericBounds_setKey_cand (t c : JObj) (inp : Bool)
    (k : String) (v : Json) (hv : isNumRep v = false) :
    compatNumericBounds t (setKey c k v) inp =
      compatNumericBounds t (setKey c k (.num 0 0)) inp := by
  unfold compatNumericBounds
  simp only [hasKey_setKey_congr c k _ v (.num 0 0),
    effectiveLowerBound_setKey_nonnum c k v hv,
    effectiveUpperBound_setKey_nonnum c k v hv]

theorem compatNumericBounds_setKey_tgt (t c : JObj) (inp : Bool)
    (k : String) (v : Json) (hv : isNumRep v = false) :
    compatNumericBounds (setKey t k v) c inp =
      compatNumericBounds (setKey t k (.num 0 0)) c inp := by
  unfold compatNumericBounds
  simp only [hasKey_setKey_congr t k _ v (.num 0 0),
    effectiveLowerBound_setKey_nonnum t k v hv,
    effectiveUpperBound_setKey_nonnum t k v hv]

/-- Claim C10: in every compatibility bound comparison, a bound whose
value is not a recognized numeric representation is silently compared as
the number 0 rather than causing an error: `toFloat64` maps every
unrecognised value to 0, both bound checkers are unchanged when such a
value is replaced by 0 on either side, and concretely a candidate
`minimum:"oops"` behaves exactly like `minimum:0`. -/
theorem claimC10 :
    (∀ v : Json, isNumRep v = false → toFloat64 v = (0, 0)) ∧
    (∀ (t c : JObj) (inp : Bool) (minK maxK k : String) (v : Json),
      isNumRep v = false →
      compatSimpleBounds t (setKey c k v) inp minK maxK =
        compatSimpleBounds t (setKey c k (.num 0 0)) inp minK maxK ∧
      compatSimpleBounds (setKey t k v) c inp minK maxK =
        compatSimpleBounds (setKey t k (.num 0 0)) c inp minK maxK) ∧
    (∀ (t c : JObj) (inp : Bool) (k : String) (v : Json), isNumRep v = false →
      compatNumericBounds t (setKey c k v) inp =
        compatNumericBounds t (setKey c k (.num 0 0)) inp ∧
      compatNumericBounds (setKey t k v) c inp =
        compatNumericBounds (setKey t k (.num 0 0)) c inp) ∧
    InputCompatibleF 50 cfg0
      [(("type"), Json.str ("number")), (("minimum"), Json.num 1 0)]
      [(("type"), Json.str ("number")), (("minimum"), Json.str ("oops"))] = .ok true ∧
    InputCompatibleF 50 cfg0
      [(("type"), Json.str ("number")), (("minimum"), Json.num 1 0)]
      [(("type"), Json.str ("number")), (("minimum"), Json.num 0 0)] = .ok true ∧
    InputCompatibleF 50 cfg0
      [(("type"), Json.str ("number")), (("minimum"), Json.num 1 0)]
      [(("type"), Json.str ("number")), (("minimum"), Json.num 2 0)] = .ok false := by
  refine ⟨fun v hv => toFloat64_nonnum hv, ?_, ?_, by rfl, by rfl, by rfl⟩
  · intro t c inp minK maxK k v hv
    exact ⟨compatSimpleBounds_setKey_cand t c inp minK maxK k v hv,
      compatSimpleBounds_setKey_tgt t c inp minK maxK k v hv⟩
  · intro t c inp k v hv
    exact ⟨compatNumericBounds_setKey_cand t c inp k v hv,
      compatNumericBounds_setKey_tgt t c inp k v hv⟩

/-- Witness for claim C10 at a concrete non-numeric bound value. -/
theorem claimC10_witness :
    compatSimpleBounds [] (setKey [] ("minItems") (Json.str ("oops"))) true
        ("minItems") ("maxItems") =
      compatSimpleBounds [] (setKey [] ("minItems") (Json.num 0 0)) true
        ("minItems") ("maxItems") :=
  (claimC10.2.1 [] [] true ("minItems") ("maxItems") ("minItems")
    (Json.str ("oops")) (by rfl)).1

theorem pow10_pos : ∀ n : Nat, 0 < pow10 n
  | 0 => by decide
  | Nat.succ n => by
    have := pow10_pos n
    simp only [pow10]
    omega

theorem decAbsGeInt_zero (e n : Int) (hn : 0 < n) :
    decAbsGeInt 0 e n = false := by
  unfold decAbsGeInt
  split
  · simp
    omega
  · simp only [Int.natAbs_zero, Int.natCast_zero]
    have := pow10_pos (-e).toNat
    simp
    positivity

theorem digitChar_mem (n : Nat) : digitChar n ∈ digitList := by
  unfold digitChar
  rcases Nat.lt_or_ge n 10 with h | h
  · interval_cases n <;> decide
  · rw [List.getD_eq_default _ _ (by simpa [digitList] using h)]
    decide

theorem mem_natDigitsAux : ∀ (f n : Nat) (c : Char),
    c ∈ natDigitsAux f n → c ∈ digitList
  | 0, _, _ => by simp [natDigitsAux]
  | Nat.succ f, n, c => by
    simp only [natDigitsAux]
    split
    · intro h
      rcases List.mem_singleton.mp h with rfl
      exact digitChar_mem n
    · intro h
      rcases List.mem_append.mp h with h | h
      · exact mem_natDigitsAux f (n / 10) c h
      · rcases List.mem_singleton.mp h with rfl
        exact digitChar_mem (n % 10)

theorem mem_natDigits {n : Nat} {c : Char} (h : c ∈ natDigits n) : c ∈ digitList :=
  mem_natDigitsAux (n + 1) n c h

theorem natDigitsAux_ne_nil (f n : Nat) : natDigitsAux (Nat.succ f) n ≠ [] := by
  simp only [natDigitsAux]
  split
  · simp
  · simp

theorem natDigits_ne_nil (n : Nat) : natDigits n ≠ [] :=
  natDigitsAux_ne_nil n n

theorem e_not_mem_digitList : ('e') ∉ digitList := by decide

/-- Every character of the decimal form is a sign, a point, or a digit;
in particular the decimal form contains no exponent marker. -/
theorem fmtDec_chars (m e : Int) :
    ∀ c, c ∈ fmtDec m e → c ∈ ('-') :: ('.') :: digitList := by
  intro c hc
  unfold fmtDec at hc
  dsimp only at hc
  have hsign : ∀ x, x ∈ (if m < 0 then [('-')] else ([] : List Char)) →
      x ∈ ('-') :: ('.') :: digitList := by
    intro x hx
    by_cases hm : m < 0
    · rw [if_pos hm] at hx
      rcases List.mem_singleton.mp hx with rfl
      exact List.mem_cons_self _ _
    · rw [if_neg hm] at hx
      simp at hx
  have hdig : ∀ x, x ∈ natDigits (stripZeroFactors m.natAbs).1 →
      x ∈ ('-') :: ('.') :: digitList := by
    intro x hx
    exact List.mem_cons_of_mem _ (List.mem_cons_of_mem _ (mem_natDigits hx))
  have hzero : ('0') ∈ ('-') :: ('.') :: digitList := by decide
  have hdot : ('.') ∈ ('-') :: ('.') :: digitList := by decide
  by_cases h0 : (0 : Int) ≤ e + ((stripZeroFactors m.natAbs).2 : Int)
  · rw [if_pos h0] at hc
    rcases List.mem_append.mp hc with h | h
    · rcases List.mem_append.mp h with h | h
      · exact hsign c h
      · exact hdig c h
    · rcases List.eq_of_mem_replicate h with rfl
      exact hzero
  · rw [if_neg h0] at hc
    by_cases hp : (-(e + ((stripZeroFactors m.natAbs).2 : Int))).toNat <
        (natDigits (stripZeroFactors m.natAbs).1).length
    · rw [if_pos hp] at hc
      rcases List.mem_append.mp hc with h | h
      · rcases List.mem_append.mp h with h | h
        · exact hsign c h
        · exact hdig c (List.take_subset _ _ h)
      · rcases List.mem_cons.mp h with h | h
        · exact h ▸ hdot
        · exact hdig c (List.drop_subset _ _ h)
    · rw [if_neg hp] at hc
      rcases List.mem_append.mp hc with h | h
      · exact hsign c h
      · rcases List.mem_cons.mp h with h | h
        · exact h ▸ hzero
        · rcases List.mem_cons.mp h with h | h
          · exact h ▸ hdot
          · rcases List.mem_append.mp h with h | h
            · rcases List.eq_of_mem_replicate h with rfl
              exact hzero
            · exact hdig c h

/-- The plain decimal form contains no exponent marker. -/
theorem e_not_in_fmtDec (m e : Int) : ('e') ∉ fmtDec m e := by
  intro hmem
  have := fmtDec_chars m e _ hmem
  simp [digitList] at this

theorem splitAtChar_append (c : Char) :
    ∀ (pre rest : List Char), c ∉ pre →
      splitAtChar c (pre ++ c :: rest) = some (pre, rest)
  | [], rest, _ => by simp [splitAtChar]
  | x :: pre, rest, h => by
    have hx : ¬x = c := fun hh => h (hh ▸ List.mem_cons_self x pre)
    simp only [List.cons_append, splitAtChar, if_neg hx, List.append_eq]
    rw [splitAtChar_append c pre rest (fun hh => h (List.mem_cons_of_mem x hh))]

theorem stripExpZeros_ne_nil : ∀ l : List Char, l ≠ [] → stripExpZeros l ≠ [] := by
  intro l
  induction l using stripExpZeros.induct with
  | case1 d ds ih =>
    intro _
    rw [stripExpZeros]
    exact ih (by simp)
  | case2 l h =>
    intro hne
    rw [stripExpZeros.eq_def]
    split
    · rename_i d1 ds1
      exact (h d1 ds1 rfl).elim
    · exact hne

theorem stripExpZeros_no_lead : ∀ (l : List Char) (d : Char) (ds : List Char),
    stripExpZeros l ≠ ('0') :: d :: ds := by
  intro l
  induction l using stripExpZeros.induct with
  | case1 d0 ds0 ih =>
    intro d ds
    rw [stripExpZeros]
    exact ih d ds
  | case2 l h =>
    intro d ds
    rw [stripExpZeros.eq_def]
    split
    · rename_i d1 ds1
      exact (h d1 ds1 rfl).elim
    · intro hEq
      exact h d ds hEq

theorem e_not_in_mantOf (ds : List Char) (hds : ∀ c ∈ ds, c ∈ digitList) :
    ('e') ∉ mantOf ds := by
  match ds with
  | [] => simp [mantOf]
  | [d] =>
    intro h
    rcases List.mem_singleton.mp (by simpa [mantOf] using h) with rfl
    exact e_not_mem_digitList (hds _ (by simp))
  | d :: d2 :: rest =>
    intro h
    have hEq : mantOf (d :: d2 :: rest) = d :: ('.') :: d2 :: rest := rfl
    rw [hEq] at h
    rcases List.mem_cons.mp h with h | h
    · exact e_not_mem_digitList (hds _ (h ▸ List.mem_cons_self _ _))
    · rcases List.mem_cons.mp h with h | h
      · simp at h
      · exact e_not_mem_digitList (hds _ (List.mem_cons_of_mem _ h))

theorem expShapeHelper (sign mant : List Char) (sgn : Char) (padded : List Char)
    (hp : padded ≠ []) (hs : ('e') ∉ sign) (hm : ('e') ∉ mant) :
    ∃ (pre : List Char) (sgnc d0 : Char) (ds0 : List Char),
      sign ++ mant ++ ('e') :: sgn :: padded = pre ++ ('e') :: sgnc :: d0 :: ds0 ∧
        ('e') ∉ pre := by
  cases padded with
  | nil => exact absurd rfl hp
  | cons d0 ds0 =>
    refine ⟨sign ++ mant, sgn, d0, ds0, ?_, ?_⟩
    · rw [List.append_assoc]
    · intro h
      rcases List.mem_append.mp h with h | h
      · exact hs h
      · exact hm h

theorem fmtExp_shape (m e : Int) :
    ∃ (pre : List Char) (sgnc d0 : Char) (ds0 : List Char),
      fmtExp m e = pre ++ ('e') :: sgnc :: d0 :: ds0 ∧ ('e') ∉ pre := by
  unfold fmtExp
  dsimp only
  apply expShapeHelper
  · split
    · simp
    · exact natDigits_ne_nil _
  · split
    · simp
    · simp
  · exact e_not_in_mantOf _ (fun c hc => mem_natDigits hc)

theorem normalizeExponent_fmtExp (m e : Int) :
    ∃ (pre : List Char) (sgnc : Char) (ds : List Char),
      normalizeExponent (fmtExp m e) = pre ++ ('e') :: sgnc :: ds ∧
        ds ≠ [] ∧ (∀ (d' : Char) (ds' : List Char), ds ≠ ('0') :: d' :: ds') := by
  obtain ⟨pre, sgnc, d0, ds0, hEq, hpre⟩ := fmtExp_shape m e
  refine ⟨pre, sgnc, stripExpZeros (d0 :: ds0), ?_,
    stripExpZeros_ne_nil _ (by simp), fun d' ds' hcon => ?_⟩
  · unfold normalizeExponent
    rw [hEq, splitAtChar_append _ _ _ hpre]
  · exact stripExpZeros_no_lead (d0 :: ds0) d' ds' hcon

/-- Claim C9: number canonicalization under the double view: values whose
magnitude reaches the binary64 overflow threshold fail (the ±Infinity
error); zero — including IEEE negative zero, which compares equal to
zero — is emitted as "0"; magnitudes inside [1e-6, 1e21) are emitted in
decimal form (no exponent marker) and magnitudes outside in exponent form
whose exponent digits carry no leading zeros; and concretely
canonicalizing an object with members 1e-6 and 1e-7 yields exactly
the bytes of the object with 0.000001 and 1e-7. -/
theorem claimC9 :
    (∀ m e : Int, (formatJCSNum m e = .error () ↔ decAbsGeInt m e dblOverflow = true)) ∧
    (∀ e : Int, formatJCSNum 0 e = .ok [('0')]) ∧
    (∀ m e : Int, decAbsGeInt m e dblOverflow = false →
      (decAbsLtPow m e 21 = true → decAbsLtPow m e (-6) = false →
        formatJCSNum m e = .ok (fmtDec m e) ∧ ('e') ∉ fmtDec m e) ∧
      (m ≠ 0 → (decAbsLtPow m e 21 = false ∨ decAbsLtPow m e (-6) = true) →
        formatJCSNum m e = .ok (normalizeExponent (fmtExp m e)) ∧
        ∃ (pre : List Char) (sgnc : Char) (ds : List Char),
          normalizeExponent (fmtExp m e) = pre ++ ('e') :: sgnc :: ds ∧ ds ≠ [] ∧
          (∀ (d' : Char) (ds' : List Char), ds ≠ ('0') :: d' :: ds'))) ∧
    canon (Json.obj [(("n"), Json.num 1 (-6)), (("m"), Json.num 1 (-7))]) =
      .ok (("\x7b\"m\":1e-7,\"n\":0.000001\x7d").data) := by
  refine ⟨?_, ?_, ?_, by rfl⟩
  · intro m e
    cases hov : decAbsGeInt m e dblOverflow with
    | true =>
      simp only [formatJCSNum, hov, if_true]
    | false =>
      simp only [formatJCSNum, hov, Bool.false_eq_true, if_false, iff_false]
      intro h
      split at h
      · simp at h
      · split at h <;> simp at h
  · intro e
    have hz : decAbsGeInt 0 e dblOverflow = false :=
      decAbsGeInt_zero e dblOverflow (by decide)
    simp only [formatJCSNum, hz, Bool.false_eq_true, if_false]
    rfl
  · intro m e hov
    constructor
    · intro h21 h6
      have hm : (m == 0) = false := by
        cases hmb : (m == 0) with
        | true =>
          have : m = 0 := by simpa using hmb
          subst this
          simp [decAbsLtPow] at h6
        | false => rfl
      refine ⟨?_, e_not_in_fmtDec m e⟩
      simp only [formatJCSNum, hov, Bool.false_eq_true, if_false, hm, h21, h6,
        Bool.not_true, Bool.or_false, if_false]
    · intro hm hcond
      have hmb : (m == 0) = false := by simpa using hm
      have hcondb : (!(decAbsLtPow m e 21) || decAbsLtPow m e (-6)) = true := by
        rcases hcond with h | h
        · simp [h]
        · simp [h]
      refine ⟨?_, normalizeExponent_fmtExp m e⟩
      simp only [formatJCSNum, hov, Bool.false_eq_true, if_false, hmb, hcondb, if_true]

/-- Witness for claim C9's branch clauses at concrete inputs: 1.5 (in
range, decimal form) and 1e-7 (below range, exponent form). -/
theorem claimC9_witness :
    (formatJCSNum 15 (-1) = .ok (fmtDec 15 (-1)) ∧ ('e') ∉ fmtDec 15 (-1)) ∧
    (formatJCSNum 1 (-7) = .ok (normalizeExponent (fmtExp 1 (-7))) ∧
      ∃ (pre : List Char) (sgnc : Char) (ds : List Char),
        normalizeExponent (fmtExp 1 (-7)) = pre ++ ('e') :: sgnc :: ds ∧ ds ≠ [] ∧
        (∀ (d' : Char) (ds' : List Char), ds ≠ ('0') :: d' :: ds')) :=
  ⟨(claimC9.2.2.1 15 (-1) (by rfl)).1 (by rfl) (by rfl),
   (claimC9.2.2.1 1 (-7) (by rfl)).2 (by decide) (Or.inr (by rfl))⟩

/-- One key-order step: swap two adjacent members of some object, at any
depth (through array elements and object member values). -/
inductive KeySwap : Json → Json → Prop where
  | here (l r : List (String × Json)) (p q : String × Json) :
      KeySwap (.obj (l ++ p :: q :: r)) (.obj (l ++ q :: p :: r))
  | inArr (l r : List Json) (x y : Json) :
      KeySwap x y → KeySwap (.arr (l ++ x :: r)) (.arr (l ++ y :: r))
  | inVal (l r : List (String × Json)) (k : String) (x y : Json) :
      KeySwap x y → KeySwap (.obj (l ++ (k, x) :: r)) (.obj (l ++ (k, y) :: r))

/-- Two JSON documents differ only in the order of object keys when one
is reachable from the other by adjacent member swaps (which generate all
permutations) at any depth. -/
def KeyOrderEq : Json → Json → Prop :=
  Relation.ReflTransGen KeySwap

/-- Duplicate-free member names. -/
def keysNodup : List (String × Json) → Bool
  | [] => true
  | p :: fs => !(fs.any (fun q => q.1 == p.1)) && keysNodup fs

mutual

/-- Well-formed decoded JSON: object member names are duplicate-free at
every depth (guaranteed by `encoding/json` decoding, which `Marshal`
performs before emitting). -/
def wfKeys : Json → Bool
  | .null => true
  | .bool _ => true
  | .str _ => true
  | .num _ _ => true
  | .arr xs => wfList xs
  | .obj fs => keysNodup fs && wfFields fs

def wfList : List Json → Bool
  | [] => true
  | x :: xs => wfKeys x && wfList xs

def wfFields : List (String × Json) → Bool
  | [] => true
  | p :: fs => wfKeys p.2 && wfFields fs

end

theorem keysNodup_iff : ∀ fs : List (String × Json),
    keysNodup fs = true ↔ (fs.map Prod.fst).Nodup
  | [] => by simp [keysNodup]
  | p :: fs => by
    rw [keysNodup, Bool.and_eq_true, keysNodup_iff fs]
    simp only [List.map_cons, List.nodup_cons, List.mem_map]
    constructor
    · rintro ⟨h1, h2⟩
      refine ⟨?_, h2⟩
      rintro ⟨q, hq, hEq⟩
      have hA : fs.any (fun q => q.1 == p.1) = true :=
        List.any_eq_true.mpr ⟨q, hq, beq_iff_eq.mpr hEq⟩
      rw [hA] at h1
      simp at h1
    · rintro ⟨h1, h2⟩
      refine ⟨?_, h2⟩
      cases hA : fs.any (fun q => q.1 == p.1) with
      | false => rfl
      | true =>
        rcases List.any_eq_true.mp hA with ⟨q, hq, hEq⟩
        exact absurd ⟨q, hq, beq_iff_eq.mp hEq⟩ h1

theorem wfList_iff : ∀ xs : List Json,
    wfList xs = true ↔ ∀ x ∈ xs, wfKeys x = true
  | [] => by simp [wfList]
  | x :: xs => by
    simp [wfList, Bool.and_eq_true, wfList_iff xs]

theorem wfFields_iff : ∀ fs : List (String × Json),
    wfFields fs = true ↔ ∀ p ∈ fs, wfKeys p.2 = true
  | [] => by simp [wfFields]
  | p :: fs => by
    simp [wfFields, Bool.and_eq_true, wfFields_iff fs]

/-- A key swap preserves well-formedness. -/
theorem wfKeys_swap : ∀ {a b : Json}, KeySwap a b → wfKeys a = true → wfKeys b = true := by
  intro a b h
  induction h with
  | here l r p q =>
    intro hw
    rw [wfKeys] at hw ⊢
    simp only [Bool.and_eq_true] at hw ⊢
    rcases hw with ⟨hn, hf⟩
    have hperm : (l ++ p :: q :: r).Perm (l ++ q :: p :: r) :=
      List.Perm.append_left l (List.Perm.swap q p r)
    refine ⟨?_, ?_⟩
    · rw [keysNodup_iff] at hn ⊢
      exact (List.Perm.nodup_iff (hperm.map Prod.fst)).mp hn
    · rw [wfFields_iff] at hf ⊢
      intro x hx
      exact hf x (hperm.symm.mem_iff.mp hx)
  | inArr l r x y hs ih =>
    intro hw
    rw [wfKeys] at hw ⊢
    rw [wfList_iff] at hw ⊢
    intro z hz
    rcases List.mem_append.mp hz with h | h
    · exact hw z (List.mem_append.mpr (Or.inl h))
    · rcases List.mem_cons.mp h with h | h
      · subst h
        exact ih (hw x (List.mem_append.mpr (Or.inr (List.mem_cons_self _ _))))
      · exact hw z (List.mem_append.mpr (Or.inr (List.mem_cons_of_mem _ h)))
  | inVal l r k x y hs ih =>
    intro hw
    rw [wfKeys] at hw ⊢
    simp only [Bool.and_eq_true] at hw ⊢
    rcases hw with ⟨hn, hf⟩
    refine ⟨?_, ?_⟩
    · rw [keysNodup_iff] at hn ⊢
      simpa using (by simpa using hn : ((l ++ (k, x) :: r).map Prod.fst).Nodup)
    · rw [wfFields_iff] at hf ⊢
      intro p hp
      rcases List.mem_append.mp hp with h | h
      · exact hf p (List.mem_append.mpr (Or.inl h))
      · rcases List.mem_cons.mp h with h | h
        · subst h
          exact ih (hf (k, x) (List.mem_append.mpr (Or.inr (List.mem_cons_self _ _))))
        · exact hf p (List.mem_append.mpr (Or.inr (List.mem_cons_of_mem _ h)))

theorem canonFields_keys : ∀ (fs : List (String × Json)) (es : List (List Nat × List Char)),
    canonFields fs = .ok es → es.map Prod.fst = fs.map (fun p => utf16Str p.1)
  | [], es, h => by
    simp only [canonFields] at h
    cases h
    simp
  | f :: fs, es, h => by
    simp only [canonFields] at h
    cases hc : canon f.2 with
    | error er =>
      simp only [hc] at h
      exact Except.noConfusion h
    | ok c =>
      cases hcs : canonFields fs with
      | error er =>
        simp only [hc, hcs] at h
        exact Except.noConfusion h
      | ok cs =>
        simp only [hc, hcs] at h
        cases h
        simp only [List.map_cons]
        rw [canonFields_keys fs cs hcs]

theorem canonList_congr_one (x y : Json) (hxy : canon x = canon y) :
    ∀ (l r : List Json), canonList (l ++ x :: r) = canonList (l ++ y :: r)
  | [], r => by
    simp only [List.nil_append, canonList, hxy]
  | z :: l, r => by
    simp only [List.cons_append, canonList, List.append_eq]
    rw [canonList_congr_one x y hxy l r]

theorem canonFields_congr_one (k : String) (x y : Json) (hxy : canon x = canon y) :
    ∀ (l r : List (String × Json)),
      canonFields (l ++ (k, x) :: r) = canonFields (l ++ (k, y) :: r)
  | [], r => by
    simp only [List.nil_append, canonFields]
    rw [hxy]
  | z :: l, r => by
    simp only [List.cons_append, canonFields, List.append_eq]
    rw [canonFields_congr_one k x y hxy l r]

/-- Rendering the members of an object with two adjacent members swapped:
both renderings fail together, or both succeed with permuted member
lists. -/
theorem canonFields_swap (p q : (String × Json)) :
    ∀ (l r : List (String × Json)),
      (canonFields (l ++ p :: q :: r) = .error () ∧
        canonFields (l ++ q :: p :: r) = .error ()) ∨
      (∃ cl1 cl2, canonFields (l ++ p :: q :: r) = .ok cl1 ∧
        canonFields (l ++ q :: p :: r) = .ok cl2 ∧ cl1.Perm cl2)
  | [], r => by
    simp only [List.nil_append, canonFields]
    cases hp : canon p.2 with
    | error ep =>
      cases hq : canon q.2 with
      | error eq0 => exact Or.inl ⟨rfl, rfl⟩
      | ok cq =>
        cases hr : canonFields r with
        | error er => exact Or.inl ⟨rfl, rfl⟩
        | ok cr => exact Or.inl ⟨rfl, rfl⟩
    | ok cp =>
      cases hq : canon q.2 with
      | error eq0 => exact Or.inl ⟨rfl, rfl⟩
      | ok cq =>
        cases hr : canonFields r with
        | error er => exact Or.inl ⟨rfl, rfl⟩
        | ok cr =>
          refine Or.inr ⟨_, _, rfl, rfl, ?_⟩
          exact List.Perm.swap _ _ _
  | z :: l, r => by
    simp only [List.cons_append, canonFields, List.append_eq]
    cases hz : canon z.2 with
    | error ez => exact Or.inl ⟨rfl, rfl⟩
    | ok cz =>
      rcases canonFields_swap p q l r with ⟨h1, h2⟩ | ⟨cl1, cl2, h1, h2, hperm⟩
      · rw [h1, h2]
        exact Or.inl ⟨rfl, rfl⟩
      · rw [h1, h2]
        exact Or.inr ⟨_, _, rfl, rfl, hperm.cons _⟩

/-- Sorting by UTF-16 key order is invariant under permutation of the
members, provided the keys are duplicate-free. -/
theorem sortBy_perm_eq (l1 l2 : List (List Nat × List Char))
    (hperm : l1.Perm l2) (hnd : (l1.map Prod.fst).Nodup) :
    sortBy (fun a b => lexLt a.1 b.1) l1 = sortBy (fun a b => lexLt a.1 b.1) l2 := by
  apply sortedKeyPermEq Prod.fst
  · exact (perm_sortBy _ l1).trans (hperm.trans (perm_sortBy _ l2).symm)
  · exact pairwise_sortBy (fun a b => lexLt a.1 b.1) (fun a b h => lexLt_asymm a.1 b.1 h)
      (fun a b c h1 h2 => lexLt_trans a.1 b.1 c.1 h1 h2) l1
  · exact pairwise_sortBy (fun a b => lexLt a.1 b.1) (fun a b h => lexLt_asymm a.1 b.1 h)
      (fun a b c h1 h2 => lexLt_trans a.1 b.1 c.1 h1 h2) l2
  · exact (List.Perm.nodup_iff ((perm_sortBy _ l1).map Prod.fst)).mpr hnd

theorem utf16Str_injective : Function.Injective utf16Str :=
  fun _ _ h => utf16Str_inj h

/-- One adjacent key swap does not change the canonical bytes. -/
theorem canon_swap : ∀ {a b : Json}, KeySwap a b → wfKeys a = true →
    canon a = canon b := by
  intro a b h
  induction h with
  | here l r p q =>
    intro hw
    simp only [canon]
    rcases canonFields_swap p q l r with ⟨h1, h2⟩ | ⟨cl1, cl2, h1, h2, hperm⟩
    · rw [h1, h2]
    · simp only [h1, h2]
      have hk : ((l ++ p :: q :: r).map Prod.fst).Nodup := by
        rw [wfKeys, Bool.and_eq_true] at hw
        exact (keysNodup_iff _).mp hw.1
      have hnd : (cl1.map Prod.fst).Nodup := by
        rw [canonFields_keys _ _ h1]
        have hmm : (l ++ p :: q :: r).map (fun p => utf16Str p.1) =
            ((l ++ p :: q :: r).map Prod.fst).map utf16Str := by
          rw [List.map_map]
          rfl
        rw [hmm]
        exact hk.map utf16Str_injective
      rw [sortBy_perm_eq cl1 cl2 hperm hnd]
  | inArr l r x y hs ih =>
    intro hw
    have hx : wfKeys x = true := by
      rw [wfKeys, wfList_iff] at hw
      exact hw x (List.mem_append.mpr (Or.inr (List.mem_cons_self _ _)))
    simp only [canon]
    rw [canonList_congr_one x y (ih hx) l r]
  | inVal l r k x y hs ih =>
    intro hw
    have hx : wfKeys x = true := by
      rw [wfKeys, Bool.and_eq_true] at hw
      have hf := hw.2
      rw [wfFields_iff] at hf
      exact hf (k, x) (List.mem_append.mpr (Or.inr (List.mem_cons_self _ _)))
    simp only [canon]
    rw [canonFields_congr_one k x y (ih hx) l r]

/-- Key-order equivalence preserves well-formedness. -/
theorem wfKeys_keyOrderEq {a b : Json} (h : KeyOrderEq a b)
    (hw : wfKeys a = true) : wfKeys b = true := by
  induction h with
  | refl => exact hw
  | tail _ hbc ih => exact wfKeys_swap hbc ih

/-- Key-order equivalence does not change the canonical bytes. -/
theorem canon_keyOrderEq {a b : Json} (h : KeyOrderEq a b)
    (hw : wfKeys a = true) : canon a = canon b := by
  induction h with
  | refl => rfl
  | tail hab hbc ih =>
    exact ih.trans (canon_swap hbc (wfKeys_keyOrderEq hab hw))

/-- The object case of `canon` emits the rendered members as a sorted
permutation of the member list: sorted (non-strictly) by the UTF-16
code-unit order of the keys. -/
theorem canon_obj_sorted (fs : List (String × Json))
    (es : List (List Nat × List Char)) (h : canonFields fs = .ok es) :
    canon (.obj fs) = .ok (lbrace :: (joinComma
      ((sortBy (fun a b => lexLt a.1 b.1) es).map (fun p => p.2)) ++ [rbrace])) ∧
    (sortBy (fun a b => lexLt a.1 b.1) es).Perm es ∧
    ((sortBy (fun a b => lexLt a.1 b.1) es).map Prod.fst).Pairwise
      (fun u v => lexLt v u = false) := by
  refine ⟨?_, perm_sortBy _ es, ?_⟩
  · simp only [canon, h]
  · rw [List.pairwise_map]
    exact pairwise_sortBy (fun a b => lexLt a.1 b.1) (fun a b hh => lexLt_asymm a.1 b.1 hh)
      (fun a b c h1 h2 => lexLt_trans a.1 b.1 c.1 h1 h2) es

/-- No literal space character (U+0020) in a string scalar.  Control
characters, including tab and newline, are allowed: the escaper rewrites
them, so only a literal space can put whitespace into the output. -/
def strNoSp (s : String) : Bool :=
  s.data.all (fun c => !(c.toNat == 32))

mutual

/-- The document contains no literal space character in any string
scalar, key or value. -/
def spOK : Json → Bool
  | .null => true
  | .bool _ => true
  | .num _ _ => true
  | .str s => strNoSp s
  | .arr xs => spOKList xs
  | .obj fs => spOKFields fs

def spOKList : List Json → Bool
  | [] => true
  | x :: xs => spOK x && spOKList xs

def spOKFields : List (String × Json) → Bool
  | [] => true
  | p :: fs => strNoSp p.1 && spOK p.2 && spOKFields fs

end

theorem hexDigit_not_space (n : Nat) (h : n ≤ 15) :
    isSpaceChar (hexDigit n) = false := by
  interval_cases n <;> rfl

/-- Escaping a non-space character produces no whitespace characters. -/
theorem escapeChar_not_space (r : Char) (hr : r.toNat ≠ 32) :
    ∀ c ∈ escapeChar r, isSpaceChar c = false := by
  intro c hc
  rw [escapeChar] at hc
  by_cases h1 : r = '\\'
  · rw [if_pos h1] at hc
    simp only [List.mem_cons, List.not_mem_nil, or_false] at hc
    rcases hc with rfl | rfl <;> rfl
  rw [if_neg h1] at hc
  by_cases h2 : r = '"'
  · rw [if_pos h2] at hc
    simp only [List.mem_cons, List.not_mem_nil, or_false] at hc
    rcases hc with rfl | rfl <;> rfl
  rw [if_neg h2] at hc
  by_cases h3 : r.toNat = 8
  · rw [if_pos h3] at hc
    simp only [List.mem_cons, List.not_mem_nil, or_false] at hc
    rcases hc with rfl | rfl <;> rfl
  rw [if_neg h3] at hc
  by_cases h4 : r.toNat = 9
  · rw [if_pos h4] at hc
    simp only [List.mem_cons, List.not_mem_nil, or_false] at hc
    rcases hc with rfl | rfl <;> rfl
  rw [if_neg h4] at hc
  by_cases h5 : r.toNat = 10
  · rw [if_pos h5] at hc
    simp only [List.mem_cons, List.not_mem_nil, or_false] at hc
    rcases hc with rfl | rfl <;> rfl
  rw [if_neg h5] at hc
  by_cases h6 : r.toNat = 12
  · rw [if_pos h6] at hc
    simp only [List.mem_cons, List.not_mem_nil, or_false] at hc
    rcases hc with rfl | rfl <;> rfl
  rw [if_neg h6] at hc
  by_cases h7 : r.toNat = 13
  · rw [if_pos h7] at hc
    simp only [List.mem_cons, List.not_mem_nil, or_false] at hc
    rcases hc with rfl | rfl <;> rfl
  rw [if_neg h7] at hc
  by_cases h8 : r.toNat ≤ 31
  · rw [if_pos h8] at hc
    simp only [List.mem_cons, List.not_mem_nil, or_false] at hc
    rcases hc with rfl | rfl | rfl | rfl | rfl | rfl
    · rfl
    · rfl
    · rfl
    · rfl
    · exact hexDigit_not_space _ (by omega)
    · exact hexDigit_not_space _ (by omega)
  · rw [if_neg h8] at hc
    rcases List.mem_singleton.mp hc with rfl
    rw [not_le] at h8
    simp only [isSpaceChar, Bool.or_eq_false_iff]
    refine ⟨beq_eq_false_iff_ne.mpr hr, ?_⟩
    simp only [Bool.and_eq_false_iff, decide_eq_false_iff_not, not_le]
    omega

/-- A quoted, escaped string with no literal space contains no whitespace
characters. -/
theorem quoteJCS_not_space (s : String) (hs : strNoSp s = true) :
    ∀ c ∈ quoteJCS s, isSpaceChar c = false := by
  intro c hc
  rw [quoteJCS] at hc
  rcases List.mem_cons.mp hc with rfl | hc2
  · rfl
  rcases List.mem_append.mp hc2 with hc3 | hc3
  · rcases List.mem_flatMap.mp hc3 with ⟨r, hrm, hcr⟩
    have hr : r.toNat ≠ 32 := by
      have := List.all_eq_true.mp hs r hrm
      simpa using this
    exact escapeChar_not_space r hr c hcr
  · rcases List.mem_singleton.mp hc3 with rfl
    rfl

/-- The characters permitted in a canonical number, none of which is
whitespace. -/
theorem numChars_not_space :
    (( ('-') :: ('+') :: ('.') :: ('e') :: digitList ).all
      (fun c => !(isSpaceChar c))) = true := by decide

theorem mantOf_subset (ds : List Char) :
    ∀ c ∈ mantOf ds, c ∈ ds ∨ c = ('.') := by
  intro c hc
  match ds with
  | [] => simp [mantOf] at hc
  | [d] =>
    rw [mantOf] at hc
    exact Or.inl hc
  | d :: d2 :: rest =>
    have hEq : mantOf (d :: d2 :: rest) = d :: ('.') :: d2 :: rest := rfl
    rw [hEq] at hc
    rcases List.mem_cons.mp hc with rfl | hc2
    · exact Or.inl (List.mem_cons_self _ _)
    rcases List.mem_cons.mp hc2 with rfl | hc3
    · exact Or.inr rfl
    · exact Or.inl (List.mem_cons_of_mem _ hc3)

/-- Every character of the scientific form is a sign, a point, an
exponent marker, or a digit. -/
theorem fmtExp_chars (m e : Int) :
    ∀ c ∈ fmtExp m e, c ∈ ('-') :: ('+') :: ('.') :: ('e') :: digitList := by
  intro c hc
  simp only [fmtExp] at hc
  rcases List.mem_append.mp hc with hc1 | hc1
  · rcases List.mem_append.mp hc1 with hc2 | hc2
    · by_cases hm : m < 0
      · rw [if_pos hm] at hc2
        rcases List.mem_singleton.mp hc2 with rfl
        simp
      · rw [if_neg hm] at hc2
        simp at hc2
    · rcases mantOf_subset _ c hc2 with hd | rfl
      · have := mem_natDigits hd
        simp [this]
      · simp
  · rcases List.mem_cons.mp hc1 with rfl | hc2
    · simp
    rcases List.mem_cons.mp hc2 with rfl | hc3
    · by_cases hex : (e + (stripZeroFactors m.natAbs).2 +
          ((natDigits (stripZeroFactors m.natAbs).1).length - 1 : Nat) : Int) < 0
      · rw [if_pos hex]; simp
      · rw [if_neg hex]; simp
    · by_cases hlen : (natDigits (e + (stripZeroFactors m.natAbs).2 +
          ((natDigits (stripZeroFactors m.natAbs).1).length - 1 : Nat) : Int).natAbs).length < 2
      · rw [if_pos hlen] at hc3
        rcases List.mem_cons.mp hc3 with rfl | hc4
        · simp [digitList]
        · have := mem_natDigits hc4
          simp [this]
      · rw [if_neg hlen] at hc3
        have := mem_natDigits hc3
        simp [this]

theorem stripExpZeros_subset :
    ∀ (l : List Char), ∀ c ∈ stripExpZeros l, c ∈ l := by
  intro l
  induction l using stripExpZeros.induct with
  | case1 d ds ih =>
    intro c hc
    rw [stripExpZeros] at hc
    exact List.mem_cons_of_mem _ (ih c hc)
  | case2 l h =>
    intro c hc
    have hl : stripExpZeros l = l := by
      rw [stripExpZeros.eq_def]
      split
      · rename_i d1 ds1
        exact (h d1 ds1 rfl).elim
      · rfl
    rw [hl] at hc
    exact hc

theorem splitAtChar_subset (ch : Char) :
    ∀ (s a b : List Char), splitAtChar ch s = some (a, b) →
      (∀ c ∈ a, c ∈ s) ∧ (∀ c ∈ b, c ∈ s)
  | [], a, b, h => by simp [splitAtChar] at h
  | x :: xs, a, b, h => by
    rw [splitAtChar] at h
    by_cases hx : x = ch
    · rw [if_pos hx] at h
      rcases Option.some.inj h with h2
      rcases Prod.mk.injEq .. ▸ h2 with ⟨rfl, rfl⟩
      constructor
      · intro c hc; simp at hc
      · intro c hc; exact List.mem_cons_of_mem _ hc
    · rw [if_neg hx] at h
      cases hs : splitAtChar ch xs with
      | none => rw [hs] at h; exact Option.noConfusion h
      | some r =>
        rw [hs] at h
        rcases Option.some.inj h with h2
        rcases Prod.mk.injEq .. ▸ h2 with ⟨rfl, rfl⟩
        have ih := splitAtChar_subset ch xs r.1 r.2 (by rw [hs])
        constructor
        · intro c hc
          rcases List.mem_cons.mp hc with rfl | hc2
          · exact List.mem_cons_self _ _
          · exact List.mem_cons_of_mem _ (ih.1 c hc2)
        · intro c hc
          exact List.mem_cons_of_mem _ (ih.2 c hc)

theorem normalizeExponent_subset (s : List Char) :
    ∀ c ∈ normalizeExponent s, c ∈ s ∨ c = ('e') := by
  intro c hc
  rw [normalizeExponent] at hc
  cases hsp : splitAtChar ('e') s with
  | none => rw [hsp] at hc; exact Or.inl hc
  | some r =>
    obtain ⟨r1, r2⟩ := r
    rw [hsp] at hc
    have hsub := splitAtChar_subset ('e') s r1 r2 hsp
    cases r2 with
    | nil =>
      have hc2 : c ∈ s := hc
      exact Or.inl hc2
    | cons sign rest =>
      cases rest with
      | nil =>
        have hc2 : c ∈ s := hc
        exact Or.inl hc2
      | cons d ds =>
        have hc2 : c ∈ r1 ++ ('e') :: sign :: stripExpZeros (d :: ds) := hc
        rcases List.mem_append.mp hc2 with hc3 | hc3
        · exact Or.inl (hsub.1 c hc3)
        rcases List.mem_cons.mp hc3 with rfl | hc4
        · exact Or.inr rfl
        rcases List.mem_cons.mp hc4 with rfl | hc5
        · exact Or.inl (hsub.2 c (List.mem_cons_self _ _))
        · have hds : c ∈ d :: ds := stripExpZeros_subset _ c hc5
          exact Or.inl (hsub.2 c (List.mem_cons_of_mem _ hds))

/-- Every character of a canonical number is a sign, a point, an exponent
marker, or a digit; in particular none is whitespace. -/
theorem formatJCSNum_chars (m e : Int) (l : List Char)
    (h : formatJCSNum m e = .ok l) :
    ∀ c ∈ l, c ∈ ('-') :: ('+') :: ('.') :: ('e') :: digitList := by
  intro c hc
  rw [formatJCSNum] at h
  split at h
  · exact Except.noConfusion h
  split at h
  · rcases Except.ok.inj h with rfl
    rcases List.mem_singleton.mp hc with rfl
    simp [digitList]
  split at h
  · rcases Except.ok.inj h with rfl
    rcases normalizeExponent_subset _ c hc with hc2 | rfl
    · exact fmtExp_chars m e c hc2
    · simp
  · rcases Except.ok.inj h with rfl
    have := fmtDec_chars m e c hc
    rcases List.mem_cons.mp this with rfl | h2
    · simp
    rcases List.mem_cons.mp h2 with rfl | h3
    · simp
    · simp [h3]

theorem joinComma_subset (es : List (List Char)) :
    ∀ c ∈ joinComma es, c = (',') ∨ ∃ x ∈ es, c ∈ x := by
  intro c hc
  cases es with
  | nil => simp [joinComma] at hc
  | cons x rest =>
    rw [joinComma] at hc
    rcases List.mem_append.mp hc with hc1 | hc1
    · exact Or.inr ⟨x, List.mem_cons_self _ _, hc1⟩
    · rcases List.mem_flatMap.mp hc1 with ⟨y, hy, hcy⟩
      rcases List.mem_cons.mp hcy with rfl | hc2
      · exact Or.inl rfl
      · exact Or.inr ⟨y, List.mem_cons_of_mem _ hy, hc2⟩

theorem all_not_space_of {l : List Char}
    (h : (l.all (fun c => !(isSpaceChar c))) = true) :
    ∀ c ∈ l, isSpaceChar c = false := by
  intro c hc
  simpa using List.all_eq_true.mp h c hc

mutual

/-- The canonical bytes of a document with no literal space in its string
scalars contain no whitespace character: the serializer itself never
emits whitespace. -/
theorem canon_noSp : ∀ (v : Json) (l : List Char), spOK v = true →
    canon v = .ok l → ∀ c ∈ l, isSpaceChar c = false
  | .null, l, _, h => by
    simp only [canon] at h
    cases h
    exact all_not_space_of rfl
  | .bool b, l, _, h => by
    cases b <;> simp only [canon] at h <;> cases h <;>
      exact all_not_space_of rfl
  | .str s, l, hs, h => by
    simp only [canon] at h
    cases h
    simp only [spOK] at hs
    exact quoteJCS_not_space s hs
  | .num m e, l, _, h => by
    simp only [canon] at h
    intro c hc
    exact all_not_space_of numChars_not_space c (formatJCSNum_chars m e l h c hc)
  | .arr xs, l, hs, h => by
    simp only [canon] at h
    simp only [spOK] at hs
    cases hcl : canonList xs with
    | error er =>
      simp only [hcl] at h
      exact Except.noConfusion h
    | ok es =>
      simp only [hcl] at h
      cases h
      intro c hc
      rcases List.mem_cons.mp hc with rfl | hc2
      · rfl
      rcases List.mem_append.mp hc2 with hc3 | hc3
      · rcases joinComma_subset _ c hc3 with rfl | ⟨x, hx, hcx⟩
        · rfl
        · exact canonList_noSp xs es hs hcl x hx c hcx
      · rcases List.mem_singleton.mp hc3 with rfl
        rfl
  | .obj fs, l, hs, h => by
    simp only [canon] at h
    simp only [spOK] at hs
    cases hcf : canonFields fs with
    | error er =>
      simp only [hcf] at h
      exact Except.noConfusion h
    | ok es =>
      simp only [hcf] at h
      cases h
      intro c hc
      rcases List.mem_cons.mp hc with rfl | hc2
      · rfl
      rcases List.mem_append.mp hc2 with hc3 | hc3
      · rcases joinComma_subset _ c hc3 with rfl | ⟨x, hx, hcx⟩
        · rfl
        · rcases List.mem_map.mp hx with ⟨p, hp, rfl⟩
          have hpes : p ∈ es := (perm_sortBy _ es).mem_iff.mp hp
          exact canonFields_noSp fs es hs hcf p hpes c hcx
      · rcases List.mem_singleton.mp hc3 with rfl
        rfl

theorem canonList_noSp : ∀ (xs : List Json) (es : List (List Char)),
    spOKList xs = true → canonList xs = .ok es →
    ∀ x ∈ es, ∀ c ∈ x, isSpaceChar c = false
  | [], es, _, h => by
    simp only [canonList] at h
    cases h
    intro x hx
    simp at hx
  | y :: ys, es, hs, h => by
    simp only [canonList] at h
    simp only [spOKList, Bool.and_eq_true] at hs
    cases hcy : canon y with
    | error er =>
      simp only [hcy] at h
      exact Except.noConfusion h
    | ok cy =>
      simp only [hcy] at h
      cases hcys : canonList ys with
      | error er =>
        simp only [hcys] at h
        exact Except.noConfusion h
      | ok cys =>
        simp only [hcys] at h
        cases h
        intro x hx
        rcases List.mem_cons.mp hx with rfl | hx2
        · exact canon_noSp y x hs.1 hcy
        · exact canonList_noSp ys cys hs.2 hcys x hx2

theorem canonFields_noSp : ∀ (fs : List (String × Json))
    (es : List (List Nat × List Char)),
    spOKFields fs = true → canonFields fs = .ok es →
    ∀ p ∈ es, ∀ c ∈ p.2, isSpaceChar c = false
  | [], es, _, h => by
    simp only [canonFields] at h
    cases h
    intro p hp
    simp at hp
  | f :: fs, es, hs, h => by
    simp only [canonFields] at h
    simp only [spOKFields, Bool.and_eq_true] at hs
    cases hcf : canon f.2 with
    | error er =>
      simp only [hcf] at h
      exact Except.noConfusion h
    | ok c0 =>
      simp only [hcf] at h
      cases hcfs : canonFields fs with
      | error er =>
        simp only [hcfs] at h
        exact Except.noConfusion h
      | ok cs =>
        simp only [hcfs] at h
        cases h
        intro p hp
        rcases List.mem_cons.mp hp with rfl | hp2
        · intro c hc
          have hc2 : c ∈ quoteJCS f.1 ++ (':') :: c0 := hc
          rcases List.mem_append.mp hc2 with hc3 | hc3
          · exact quoteJCS_not_space f.1 hs.1.1 c hc3
          rcases List.mem_cons.mp hc3 with rfl | hc4
          · rfl
          · exact canon_noSp f.2 c0 hs.1.2 hcf c hc4
        · exact canonFields_noSp fs cs hs.2 hcfs p hp2

end

/-- C8: canonicalization is key-order invariant: for any two documents
(with duplicate-free member names at every depth, as decoded Go maps
have) that differ only in the order of object keys, the canonical bytes
are identical; object members are emitted sorted by lexicographic
comparison of the keys' UTF-16 code-unit sequences; and the serializer
emits no whitespace of its own - whenever no string scalar contains a
literal space, the output contains no whitespace character at all. -/
theorem claimC8 :
    (∀ a b : Json, wfKeys a = true → KeyOrderEq a b → canon a = canon b) ∧
    (∀ (fs : List (String × Json)) (es : List (List Nat × List Char)),
      canonFields fs = .ok es →
      canon (.obj fs) = .ok (lbrace :: (joinComma
        ((sortBy (fun a b => lexLt a.1 b.1) es).map (fun p => p.2)) ++ [rbrace])) ∧
      (sortBy (fun a b => lexLt a.1 b.1) es).Perm es ∧
      ((sortBy (fun a b => lexLt a.1 b.1) es).map Prod.fst).Pairwise
        (fun u v => lexLt v u = false)) ∧
    (∀ (v : Json) (l : List Char), spOK v = true → canon v = .ok l →
      ∀ c ∈ l, isSpaceChar c = false) :=
  ⟨fun _ _ hw h => canon_keyOrderEq h hw,
   fun fs es h => canon_obj_sorted fs es h,
   fun v l hs h => canon_noSp v l hs h⟩

theorem claimC8_witness :
    (canon (Json.obj [(("b"), Json.num 1 0), (("a"), Json.null)]) =
      canon (Json.obj [(("a"), Json.null), (("b"), Json.num 1 0)])) ∧
    isSpaceChar ('"') = false :=
  ⟨claimC8.1 _ _ (by rfl)
      (Relation.ReflTransGen.single
        (KeySwap.here [] [] (("b"), Json.num 1 0) (("a"), Json.null))),
   claimC8.2.2 (Json.str ("x")) (quoteJCS ("x")) (by rfl) rfl ('"')
      (List.mem_cons_self _ _)⟩

/-- Modelled from the spec: every element is a non-empty string. -/
def jstrNE : List Json → Bool
  | [] => true
  | .str s :: rest => s != ("") && jstrNE rest
  | _ => false

/-- Modelled from the spec: string elements in strictly ascending order. -/
def jstrAsc : List Json → Bool
  | .str a :: .str b :: rest => strLt a b && jstrAsc (.str b :: rest)
  | _ => true

/-- Modelled from the spec: a sorted unique array of non-empty strings
(the normalized shape of `type` and `required`). -/
def strArrOK : Json → Bool
  | .arr xs => jstrNE xs && jstrAsc xs
  | _ => false

/-- Modelled from the spec: elements in ascending order of their
canonical JSON form (the normalized shape of `oneOf`/`anyOf` variants). -/
def variantsAsc : List Json → Bool
  | a :: b :: rest =>
    !(chrLt (canonicalKey b) (canonicalKey a)) && variantsAsc (b :: rest)
  | _ => true

mutual

/-- Modelled from the spec: the per-member normalized-form invariant.  A
member is no annotation key, not `$defs`, not `allOf`; `type` and
`required` are sorted unique arrays of non-empty strings; `properties`
values, an object-valued `additionalProperties`, `items`, and every
`oneOf`/`anyOf` variant are normalized schema objects, the variants
sorted ascending by canonical JSON form.  (A `$ref` member is allowed
exactly when its value is not a non-blank string: the normalizer inlines
only those, so other `$ref` values survive.) -/
def memP (k : String) (v : Json) : Bool :=
  !(annotKeys.contains k) && k != ("$defs") && k != ("allOf") &&
  (if k == ("type") || k == ("required") then strArrOK v else true) &&
  (if k == ("properties") then
      (match v with | .obj ps => IsNormProps ps | _ => false) else true) &&
  (if k == ("additionalProperties") then
      (match v with
       | .bool _ => true
       | .obj m => (refStrOf m).isNone && IsNormMembers m
       | _ => false) else true) &&
  (if k == ("items") then
      (match v with
       | .obj m => (refStrOf m).isNone && IsNormMembers m
       | _ => false) else true) &&
  (if k == ("oneOf") || k == ("anyOf") then
      (match v with
       | .arr xs => IsNormList xs && variantsAsc xs
       | _ => false) else true)

/-- Every member satisfies the normalized-form invariant. -/
def IsNormMembers : List (String × Json) → Bool
  | [] => true
  | (k, v) :: fs => memP k v && IsNormMembers fs

/-- Every property value is a normalized schema object. -/
def IsNormProps : List (String × Json) → Bool
  | [] => true
  | (_, v) :: ps =>
    (match v with
     | .obj m => (refStrOf m).isNone && IsNormMembers m
     | _ => false) && IsNormProps ps

/-- Every union variant is a normalized schema object. -/
def IsNormList : List Json → Bool
  | [] => true
  | x :: xs =>
    (match x with
     | .obj m => (refStrOf m).isNone && IsNormMembers m
     | _ => false) && IsNormList xs

end

/-- Modelled from the spec: the normalized-form invariant of a schema
object - no inlinable `$ref` remains, and every member is in normal
form. -/
def IsNorm (fs : JObj) : Bool :=
  (refStrOf fs).isNone && IsNormMembers fs

theorem memP_type (v : Json) : memP ("type") v = strArrOK v := by
  unfold memP
  simp +decide

theorem memP_required (v : Json) : memP ("required") v = strArrOK v := by
  unfold memP
  simp +decide

theorem memP_properties (v : Json) :
    memP ("properties") v =
      (match v with | .obj ps => IsNormProps ps | _ => false) := by
  unfold memP
  simp +decide

theorem memP_ap (v : Json) :
    memP ("additionalProperties") v =
      (match v with
       | .bool _ => true
       | .obj m => (refStrOf m).isNone && IsNormMembers m
       | _ => false) := by
  unfold memP
  simp +decide

theorem memP_items (v : Json) :
    memP ("items") v =
      (match v with
       | .obj m => (refStrOf m).isNone && IsNormMembers m
       | _ => false) := by
  unfold memP
  simp +decide

theorem memP_oneOf (v : Json) :
    memP ("oneOf") v =
      (match v with
       | .arr xs => IsNormList xs && variantsAsc xs
       | _ => false) := by
  unfold memP
  simp +decide

theorem memP_anyOf (v : Json) :
    memP ("anyOf") v =
      (match v with
       | .arr xs => IsNormList xs && variantsAsc xs
       | _ => false) := by
  unfold memP
  simp +decide

theorem mem_setKey (o : JObj) (k : String) (v : Json) :
    ∀ p ∈ setKey o k v, p = (k, v) ∨ (p ∈ o ∧ (p.1 == k) = false) := by
  intro p hp
  rw [setKey] at hp
  rcases List.mem_append.mp hp with hp1 | hp1
  · refine Or.inr ⟨List.mem_of_mem_filter hp1, ?_⟩
    have := List.of_mem_filter hp1
    simpa using this
  · exact Or.inl (List.mem_singleton.mp hp1)

theorem getKey_none_ne (o : JObj) (k : String) (h : getKey o k = none) :
    ∀ p ∈ o, (p.1 == k) = false := by
  intro p hp
  rw [getKey] at h
  rcases hf : o.find? (fun p => p.1 == k) with _ | q
  · have := List.find?_eq_none.mp hf p hp
    simpa using this
  · rw [hf] at h
    exact Option.noConfusion h

theorem getKey_filter_keepKey (pr : String × Json → Bool) (k : String)
    (hk : ∀ v, pr (k, v) = true) :
    ∀ o : JObj, getKey (o.filter pr) k = getKey o k := by
  intro o
  induction o with
  | nil => rfl
  | cons p r ih =>
    by_cases hpk : p.1 = k
    · have hpr : pr p = true := by
        have hpv := hk p.2
        have hEq : (k, p.2) = p := by
          rw [← hpk]
        rw [← hEq]
        exact hpv
      rw [List.filter_cons, hpr]
      simp only [if_true]
      unfold getKey
      rw [List.find?_cons_of_pos _ (by simp [hpk]),
        List.find?_cons_of_pos _ (by simp [hpk])]
    · cases hpr : pr p with
      | true =>
        rw [List.filter_cons, hpr]
        simp only [if_true]
        unfold getKey at ih ⊢
        rw [List.find?_cons_of_neg _ (by simp [hpk]),
          List.find?_cons_of_neg _ (by simp [hpk])]
        exact ih
      | false =>
        rw [List.filter_cons, hpr]
        simp only [Bool.false_eq_true, if_false]
        unfold getKey at ih ⊢
        rw [List.find?_cons_of_neg _ (by simp [hpk])]
        exact ih

theorem refStrOf_stripKeys (o : JObj) : refStrOf (stripKeys o) = refStrOf o := by
  unfold refStrOf stripKeys
  rw [getKey_filter_keepKey _ ("$ref") (fun v => by rfl) o]

theorem refStrOf_setKey_ne (o : JObj) (k : String) (v : Json)
    (h : ("$ref" : String) ≠ k) :
    refStrOf (setKey o k v) = refStrOf o := by
  unfold refStrOf
  rw [getKey_setKey_ne _ _ _ _ h]

theorem mem_stripKeys (o : JObj) :
    ∀ p ∈ stripKeys o, p ∈ o ∧ annotKeys.contains p.1 = false ∧
      (p.1 == ("$defs")) = false := by
  intro p hp
  rw [stripKeys] at hp
  refine ⟨List.mem_of_mem_filter hp, ?_⟩
  have := List.of_mem_filter hp
  rw [Bool.and_eq_true] at this
  refine ⟨by simpa using this.1, by simpa using this.2⟩

theorem IsNormMembers_iff (fs : List (String × Json)) :
    IsNormMembers fs = true ↔ ∀ p ∈ fs, memP p.1 p.2 = true := by
  induction fs with
  | nil => simp [IsNormMembers]
  | cons p fs ih =>
    obtain ⟨k, v⟩ := p
    rw [IsNormMembers, Bool.and_eq_true, ih]
    constructor
    · rintro ⟨h1, h2⟩ q hq
      rcases List.mem_cons.mp hq with rfl | hq2
      · exact h1
      · exact h2 q hq2
    · intro h
      exact ⟨h (k, v) (List.mem_cons_self _ _),
        fun q hq => h q (List.mem_cons_of_mem _ hq)⟩

theorem memP_other (k : String) (v : Json)
    (h1 : annotKeys.contains k = false)
    (h2 : (k == ("$defs")) = false)
    (h3 : (k == ("allOf")) = false)
    (h4 : (k == ("type")) = false)
    (h5 : (k == ("required")) = false)
    (h6 : (k == ("properties")) = false)
    (h7 : (k == ("additionalProperties")) = false)
    (h8 : (k == ("items")) = false)
    (h9 : (k == ("oneOf")) = false)
    (h10 : (k == ("anyOf")) = false) :
    memP k v = true := by
  have h1' : k ∉ annotKeys := by simpa using h1
  unfold memP
  simp [h1', h2, h3, h4, h5, h6, h7, h8, h9, h10, bne]

theorem collectTypeStrs_nonblank : ∀ (xs : List Json) (l : List String),
    collectTypeStrs xs = some l → ∀ s ∈ l, (trimWS s == ("")) = false
  | [], l, h => by
    simp only [collectTypeStrs] at h
    cases h
    intro s hs
    simp at hs
  | .str s0 :: rest, l, h => by
    simp only [collectTypeStrs] at h
    split at h
    · exact Option.noConfusion h
    · rename_i hcond
      cases hr : collectTypeStrs rest with
      | none => rw [hr] at h; exact Option.noConfusion h
      | some l2 =>
        rw [hr] at h
        simp only [Option.map_some'] at h
        cases h
        intro s hs
        rcases List.mem_cons.mp hs with rfl | hs2
        · exact Bool.of_not_eq_true hcond
        · exact collectTypeStrs_nonblank rest l2 hr s hs2
  | .null :: rest, l, h => by
    simp only [collectTypeStrs] at h
    exact Option.noConfusion h
  | .bool b :: rest, l, h => by
    simp only [collectTypeStrs] at h
    exact Option.noConfusion h
  | .num m e :: rest, l, h => by
    simp only [collectTypeStrs] at h
    exact Option.noConfusion h
  | .arr a :: rest, l, h => by
    simp only [collectTypeStrs] at h
    exact Option.noConfusion h
  | .obj a :: rest, l, h => by
    simp only [collectTypeStrs] at h
    exact Option.noConfusion h

theorem nonempty_of_nonblank (s : String) (h : (trimWS s == ("")) = false) :
    (s == ("")) = false := by
  cases he : (s == ("")) with
  | false => rfl
  | true =>
    have hs : s = ("") := eq_of_beq he
    subst hs
    rw [show trimWS ("") = ("") from rfl] at h
    simp at h

theorem normalizeType_ok (v : Json) (types : List String)
    (h : normalizeType v = .ok types) :
    (∀ s ∈ types, (s == ("")) = false) ∧
    types.Pairwise (fun a b => strLt a b = true) := by
  cases v with
  | str x =>
    simp only [normalizeType] at h
    split at h
    · exact Except.noConfusion h
    · rename_i hcond
      cases h
      refine ⟨?_, List.pairwise_singleton _ _⟩
      intro s hs
      rcases List.mem_singleton.mp hs with rfl
      exact nonempty_of_nonblank s (by simpa using hcond)
  | arr xs =>
    simp only [normalizeType] at h
    cases hc : collectTypeStrs xs with
    | none => rw [hc] at h; exact Except.noConfusion h
    | some l =>
      rw [hc] at h
      cases h
      refine ⟨?_, pairwise_sortDedup l⟩
      intro s hs
      exact nonempty_of_nonblank s
        (collectTypeStrs_nonblank xs l hc s ((mem_sortDedup l s).mp hs))
  | null => exact Except.noConfusion h
  | bool b => exact Except.noConfusion h
  | num m e => exact Except.noConfusion h
  | obj fs => exact Except.noConfusion h

theorem normalizeStringSet_ok (v : Json) (types : List String)
    (h : normalizeStringSet v = .ok types) :
    (∀ s ∈ types, (s == ("")) = false) ∧
    types.Pairwise (fun a b => strLt a b = true) := by
  cases v with
  | arr xs =>
    simp only [normalizeStringSet, asSlice] at h
    cases hc : collectTypeStrs xs with
    | none => rw [hc] at h; exact Except.noConfusion h
    | some l =>
      rw [hc] at h
      cases h
      refine ⟨?_, pairwise_sortDedup l⟩
      intro s hs
      exact nonempty_of_nonblank s
        (collectTypeStrs_nonblank xs l hc s ((mem_sortDedup l s).mp hs))
  | null => exact Except.noConfusion h
  | bool b => exact Except.noConfusion h
  | num m e => exact Except.noConfusion h
  | str s => exact Except.noConfusion h
  | obj fs => exact Except.noConfusion h

theorem jstrNE_of : ∀ (l : List String), (∀ s ∈ l, (s == ("")) = false) →
    jstrNE (l.map .str) = true
  | [], _ => rfl
  | s :: rest, h => by
    simp only [List.map_cons, jstrNE, Bool.and_eq_true]
    refine ⟨?_, jstrNE_of rest (fun t ht => h t (List.mem_cons_of_mem _ ht))⟩
    have := h s (List.mem_cons_self _ _)
    simpa [bne] using this

theorem jstrAsc_of : ∀ (l : List String),
    l.Pairwise (fun a b => strLt a b = true) → jstrAsc (l.map .str) = true
  | [], _ => rfl
  | [_], _ => rfl
  | a :: b :: rest, h => by
    rcases List.pairwise_cons.mp h with ⟨ha, htail⟩
    simp only [List.map_cons, jstrAsc, Bool.and_eq_true]
    refine ⟨ha b (List.mem_cons_self _ _), ?_⟩
    have := jstrAsc_of (b :: rest) htail
    simpa using this

theorem strArrOK_of (types : List String)
    (h1 : ∀ s ∈ types, (s == ("")) = false)
    (h2 : types.Pairwise (fun a b => strLt a b = true)) :
    strArrOK (.arr (types.map .str)) = true := by
  simp only [strArrOK, Bool.and_eq_true]
  exact ⟨jstrNE_of _ h1, jstrAsc_of _ h2⟩

theorem normTypeStep_mem (o : JObj) (path : String) (o' : JObj)
    (h : normTypeStep o path = .ok o') :
    refStrOf o' = refStrOf o ∧
    ∀ p ∈ o', (p.1 = ("type") ∧ memP p.1 p.2 = true) ∨
      (p ∈ o ∧ (p.1 == ("type")) = false) := by
  rw [normTypeStep] at h
  cases hg : getKey o ("type") with
  | none =>
    simp only [hg] at h
    cases h
    refine ⟨rfl, ?_⟩
    intro p hp
    exact Or.inr ⟨hp, getKey_none_ne o _ hg p hp⟩
  | some tv =>
    simp only [hg] at h
    cases hn : normalizeType tv with
    | error msg => simp only [hn] at h; exact Except.noConfusion h
    | ok types =>
      simp only [hn] at h
      cases h
      obtain ⟨hne, hpw⟩ := normalizeType_ok tv types hn
      refine ⟨refStrOf_setKey_ne o _ _ (by decide), ?_⟩
      intro p hp
      rcases mem_setKey o _ _ p hp with rfl | ⟨hpo, hpk⟩
      · refine Or.inl ⟨rfl, ?_⟩
        rw [memP_type]
        exact strArrOK_of types hne hpw
      · exact Or.inr ⟨hpo, hpk⟩

theorem normReqStep_mem (o : JObj) (path : String) (o' : JObj)
    (h : normReqStep o path = .ok o') :
    refStrOf o' = refStrOf o ∧
    ∀ p ∈ o', (p.1 = ("required") ∧ memP p.1 p.2 = true) ∨
      (p ∈ o ∧ (p.1 == ("required")) = false) := by
  rw [normReqStep] at h
  cases hg : getKey o ("required") with
  | none =>
    simp only [hg] at h
    cases h
    refine ⟨rfl, ?_⟩
    intro p hp
    exact Or.inr ⟨hp, getKey_none_ne o _ hg p hp⟩
  | some rv =>
    simp only [hg] at h
    cases hn : normalizeStringSet rv with
    | error msg => simp only [hn] at h; exact Except.noConfusion h
    | ok req =>
      simp only [hn] at h
      cases h
      obtain ⟨hne, hpw⟩ := normalizeStringSet_ok rv req hn
      refine ⟨refStrOf_setKey_ne o _ _ (by decide), ?_⟩
      intro p hp
      rcases mem_setKey o _ _ p hp with rfl | ⟨hpo, hpk⟩
      · refine Or.inl ⟨rfl, ?_⟩
        rw [memP_required]
        exact strArrOK_of req hne hpw
      · exact Or.inr ⟨hpo, hpk⟩

theorem normPropsLoop_ok : ∀ (n : Nat) (cfg : NormCfg) (stack : List String)
    (l : List (String × Json)) (path : String) (nm : List (String × Json)),
    (∀ m, m < n → ∀ cfg2 stack2 s2 path2 out2,
        normalizeAtF m cfg2 stack2 s2 path2 = .ok out2 → IsNorm out2 = true) →
    normPropsLoop n cfg stack l path = .ok nm → IsNormProps nm = true
  | 0, _, _, _, _, _, _, h => by
    simp only [normPropsLoop] at h
    exact Except.noConfusion h
  | Nat.succ f, cfg, stack, l, path, nm, HA, h => by
    cases l with
    | nil =>
      simp only [normPropsLoop] at h
      cases h
      rfl
    | cons kv rest =>
      simp only [normPropsLoop] at h
      cases ham : asMap (some kv.2) with
      | none => simp only [ham] at h; exact Except.noConfusion h
      | some vm =>
        simp only [ham] at h
        split at h
        · exact Except.noConfusion h
        · rename_i nv hnv
          split at h
          · exact Except.noConfusion h
          · rename_i nrest hnrest
            cases h
            have h1 : IsNorm nv = true := HA f (Nat.lt_succ_self f) _ _ _ _ _ hnv
            have h2 : IsNormProps nrest = true :=
              normPropsLoop_ok f cfg stack rest path nrest
                (fun m hm => HA m (Nat.lt_succ_of_lt hm)) hnrest
            simp only [IsNormProps, Bool.and_eq_true]
            refine ⟨?_, h2⟩
            simpa [IsNorm] using h1

theorem normPropsStep_mem (n : Nat) (cfg : NormCfg) (stack : List String)
    (o : JObj) (path : String) (o' : JObj)
    (HA : ∀ m, m < n → ∀ cfg2 stack2 s2 path2 out2,
        normalizeAtF m cfg2 stack2 s2 path2 = .ok out2 → IsNorm out2 = true)
    (h : normPropsStep n cfg stack o path = .ok o') :
    refStrOf o' = refStrOf o ∧
    ∀ p ∈ o', (p.1 = ("properties") ∧ memP p.1 p.2 = true) ∨
      (p ∈ o ∧ (p.1 == ("properties")) = false) := by
  cases n with
  | zero =>
    simp only [normPropsStep] at h
    exact Except.noConfusion h
  | succ f =>
    simp only [normPropsStep] at h
    cases hg : getKey o ("properties") with
    | none =>
      simp only [hg] at h
      cases h
      refine ⟨rfl, ?_⟩
      intro p hp
      exact Or.inr ⟨hp, getKey_none_ne o _ hg p hp⟩
    | some pv =>
      simp only [hg] at h
      cases ham : asMap (some pv) with
      | none => simp only [ham] at h; exact Except.noConfusion h
      | some props =>
        simp only [ham] at h
        split at h
        · exact Except.noConfusion h
        · rename_i nm hnm
          cases h
          refine ⟨refStrOf_setKey_ne o _ _ (by decide), ?_⟩
          intro p hp
          rcases mem_setKey o _ _ p hp with rfl | ⟨hpo, hpk⟩
          · refine Or.inl ⟨rfl, ?_⟩
            rw [memP_properties]
            exact normPropsLoop_ok f cfg stack props path nm
              (fun m hm => HA m (Nat.lt_succ_of_lt hm)) hnm
          · exact Or.inr ⟨hpo, hpk⟩

theorem normAPStep_mem (n : Nat) (cfg : NormCfg) (stack : List String)
    (o : JObj) (path : String) (o' : JObj)
    (HA : ∀ m, m < n → ∀ cfg2 stack2 s2 path2 out2,
        normalizeAtF m cfg2 stack2 s2 path2 = .ok out2 → IsNorm out2 = true)
    (h : normAPStep n cfg stack o path = .ok o') :
    refStrOf o' = refStrOf o ∧
    ∀ p ∈ o', (p.1 = ("additionalProperties") ∧ memP p.1 p.2 = true) ∨
      (p ∈ o ∧ (p.1 == ("additionalProperties")) = false) := by
  cases n with
  | zero =>
    simp only [normAPStep] at h
    exact Except.noConfusion h
  | succ f =>
    simp only [normAPStep] at h
    cases hg : getKey o ("additionalProperties") with
    | none =>
      simp only [hg] at h
      cases h
      refine ⟨rfl, ?_⟩
      intro p hp
      exact Or.inr ⟨hp, getKey_none_ne o _ hg p hp⟩
    | some v =>
      simp only [hg] at h
      cases v with
      | bool b =>
        have h2 : Except.ok (ε := Err)
            (setKey o ("additionalProperties") (Json.bool b)) = Except.ok o' := h
        cases h2
        refine ⟨refStrOf_setKey_ne o _ _ (by decide), ?_⟩
        intro p hp
        rcases mem_setKey o _ _ p hp with rfl | ⟨hpo, hpk⟩
        · exact Or.inl ⟨rfl, by rw [memP_ap]⟩
        · exact Or.inr ⟨hpo, hpk⟩
      | obj m =>
        have h2 : (match normalizeAtF f cfg stack m
              (ptrJoin path ("additionalProperties")) with
            | Except.error e => Except.error e
            | Except.ok nv =>
              Except.ok (setKey o ("additionalProperties") (Json.obj nv))) =
            Except.ok o' := h
        cases hna : normalizeAtF f cfg stack m
            (ptrJoin path ("additionalProperties")) with
        | error e =>
          rw [hna] at h2
          exact Except.noConfusion h2
        | ok nv =>
          rw [hna] at h2
          cases h2
          refine ⟨refStrOf_setKey_ne o _ _ (by decide), ?_⟩
          intro p hp
          rcases mem_setKey o _ _ p hp with rfl | ⟨hpo, hpk⟩
          · refine Or.inl ⟨rfl, ?_⟩
            rw [memP_ap]
            have h1 : IsNorm nv = true := HA f (Nat.lt_succ_self f) _ _ _ _ _ hna
            simpa [IsNorm] using h1
          · exact Or.inr ⟨hpo, hpk⟩
      | null => exact Except.noConfusion h
      | num m e => exact Except.noConfusion h
      | str s => exact Except.noConfusion h
      | arr a => exact Except.noConfusion h

theorem normItemsStep_mem (n : Nat) (cfg : NormCfg) (stack : List String)
    (o : JObj) (path : String) (o' : JObj)
    (HA : ∀ m, m < n → ∀ cfg2 stack2 s2 path2 out2,
        normalizeAtF m cfg2 stack2 s2 path2 = .ok out2 → IsNorm out2 = true)
    (h : normItemsStep n cfg stack o path = .ok o') :
    refStrOf o' = refStrOf o ∧
    ∀ p ∈ o', (p.1 = ("items") ∧ memP p.1 p.2 = true) ∨
      (p ∈ o ∧ (p.1 == ("items")) = false) := by
  cases n with
  | zero =>
    simp only [normItemsStep] at h
    exact Except.noConfusion h
  | succ f =>
    simp only [normItemsStep] at h
    cases hg : getKey o ("items") with
    | none =>
      simp only [hg] at h
      cases h
      refine ⟨rfl, ?_⟩
      intro p hp
      exact Or.inr ⟨hp, getKey_none_ne o _ hg p hp⟩
    | some iv =>
      simp only [hg] at h
      cases ham : asMap (some iv) with
      | none => simp only [ham] at h; exact Except.noConfusion h
      | some im =>
        simp only [ham] at h
        split at h
        · exact Except.noConfusion h
        · rename_i nv hnv
          cases h
          refine ⟨refStrOf_setKey_ne o _ _ (by decide), ?_⟩
          intro p hp
          rcases mem_setKey o _ _ p hp with rfl | ⟨hpo, hpk⟩
          · refine Or.inl ⟨rfl, ?_⟩
            rw [memP_items]
            have h1 : IsNorm nv = true := HA f (Nat.lt_succ_self f) _ _ _ _ _ hnv
            simpa [IsNorm] using h1
          · exact Or.inr ⟨hpo, hpk⟩

theorem canonVariants_mem : ∀ (vs : List JObj) (scored : List (List Char × JObj)),
    canonVariants vs = .ok scored →
    ∀ q ∈ scored, q.2 ∈ vs ∧ canon (.obj q.2) = .ok q.1
  | [], scored, h => by
    simp only [canonVariants] at h
    cases h
    intro q hq
    simp at hq
  | v :: rest, scored, h => by
    simp only [canonVariants] at h
    cases hc : canon (.obj v) with
    | error er => rw [hc] at h; exact Except.noConfusion h
    | ok c =>
      rw [hc] at h
      cases hr : canonVariants rest with
      | error er => rw [hr] at h; exact Except.noConfusion h
      | ok cs =>
        rw [hr] at h
        cases h
        intro q hq
        rcases List.mem_cons.mp hq with rfl | hq2
        · exact ⟨List.mem_cons_self _ _, hc⟩
        · obtain ⟨hm, hcq⟩ := canonVariants_mem rest cs hr q hq2
          exact ⟨List.mem_cons_of_mem _ hm, hcq⟩

theorem normVariantsLoop_ok : ∀ (n : Nat) (cfg : NormCfg) (stack : List String)
    (l : List Json) (path k : String) (nvs : List JObj),
    (∀ m, m < n → ∀ cfg2 stack2 s2 path2 out2,
        normalizeAtF m cfg2 stack2 s2 path2 = .ok out2 → IsNorm out2 = true) →
    normVariantsLoop n cfg stack l path k = .ok nvs →
    ∀ v ∈ nvs, IsNorm v = true
  | 0, _, _, _, _, _, _, _, h => by
    simp only [normVariantsLoop] at h
    exact Except.noConfusion h
  | Nat.succ f, cfg, stack, l, path, k, nvs, HA, h => by
    cases l with
    | nil =>
      simp only [normVariantsLoop] at h
      cases h
      intro v hv
      simp at hv
    | cons item rest =>
      simp only [normVariantsLoop] at h
      cases ham : asMap (some item) with
      | none => simp only [ham] at h; exact Except.noConfusion h
      | some m =>
        simp only [ham] at h
        split at h
        · exact Except.noConfusion h
        · rename_i nv hnv
          split at h
          · exact Except.noConfusion h
          · rename_i nrest hnrest
            cases h
            intro v hv
            rcases List.mem_cons.mp hv with rfl | hv2
            · exact HA f (Nat.lt_succ_self f) _ _ _ _ _ hnv
            · exact normVariantsLoop_ok f cfg stack rest path k nrest
                (fun m2 hm2 => HA m2 (Nat.lt_succ_of_lt hm2)) hnrest v hv2

theorem IsNormList_of : ∀ (l : List (List Char × JObj)),
    (∀ q ∈ l, IsNorm q.2 = true) → IsNormList (l.map (fun p => Json.obj p.2)) = true
  | [], _ => rfl
  | q :: rest, h => by
    simp only [List.map_cons, IsNormList, Bool.and_eq_true]
    refine ⟨?_, IsNormList_of rest (fun r hr => h r (List.mem_cons_of_mem _ hr))⟩
    have := h q (List.mem_cons_self _ _)
    simpa [IsNorm] using this

theorem variantsAsc_sorted : ∀ (l : List (List Char × JObj)),
    l.Pairwise (fun a b => chrLt b.1 a.1 = false) →
    (∀ q ∈ l, canon (.obj q.2) = .ok q.1) →
    variantsAsc (l.map (fun p => Json.obj p.2)) = true
  | [], _, _ => rfl
  | [_], _, _ => rfl
  | a :: b :: rest, h, hall => by
    rcases List.pairwise_cons.mp h with ⟨ha, htail⟩
    simp only [List.map_cons, variantsAsc, Bool.and_eq_true]
    constructor
    · have hca : canonicalKey (Json.obj a.2) = a.1 := by
        rw [canonicalKey, hall a (List.mem_cons_self _ _)]
      have hcb : canonicalKey (Json.obj b.2) = b.1 := by
        rw [canonicalKey, hall b (List.mem_cons_of_mem _ (List.mem_cons_self _ _))]
      rw [hca, hcb, ha b (List.mem_cons_self _ _)]
      rfl
    · have := variantsAsc_sorted (b :: rest) htail
        (fun q hq => hall q (List.mem_cons_of_mem _ hq))
      simpa using this

theorem chrLt_pair_asymm (a b : List Char × JObj) (h : chrLt a.1 b.1 = true) :
    chrLt b.1 a.1 = false := lexLt_asymm _ _ h

theorem chrLt_pair_trans (a b c : List Char × JObj) (h1 : chrLt a.1 b.1 = true)
    (h2 : chrLt b.1 c.1 = true) : chrLt a.1 c.1 = true := lexLt_trans _ _ _ h1 h2

theorem normUnionStep_mem (n : Nat) (cfg : NormCfg) (stack : List String)
    (o : JObj) (path k0 : String) (o' : JObj)
    (hne : ("$ref" : String) ≠ k0)
    (HA : ∀ m, m < n → ∀ cfg2 stack2 s2 path2 out2,
        normalizeAtF m cfg2 stack2 s2 path2 = .ok out2 → IsNorm out2 = true)
    (h : normUnionStep n cfg stack o path k0 = .ok o') :
    refStrOf o' = refStrOf o ∧
    ∀ p ∈ o', (p.1 = k0 ∧
        (match p.2 with
         | .arr xs => IsNormList xs && variantsAsc xs
         | _ => false) = true) ∨
      (p ∈ o ∧ (p.1 == k0) = false) := by
  cases n with
  | zero =>
    simp only [normUnionStep] at h
    exact Except.noConfusion h
  | succ f =>
    simp only [normUnionStep] at h
    cases hg : getKey o k0 with
    | none =>
      simp only [hg] at h
      cases h
      refine ⟨rfl, ?_⟩
      intro p hp
      exact Or.inr ⟨hp, getKey_none_ne o _ hg p hp⟩
    | some u =>
      simp only [hg] at h
      cases has : asSlice (some u) with
      | none => simp only [has] at h; exact Except.noConfusion h
      | some arr =>
        simp only [has] at h
        split at h
        · exact Except.noConfusion h
        · rename_i variants hvar
          split at h
          · exact Except.noConfusion h
          · rename_i scored hsc
            cases h
            refine ⟨refStrOf_setKey_ne o _ _ hne, ?_⟩
            intro p hp
            rcases mem_setKey o _ _ p hp with rfl | ⟨hpo, hpk⟩
            · refine Or.inl ⟨rfl, ?_⟩
              have hsorted := pairwise_sortBy (fun a b => chrLt a.1 b.1)
                (fun a b hh => chrLt_pair_asymm a b hh)
                (fun a b c h1 h2 => chrLt_pair_trans a b c h1 h2) scored
              have hmem : ∀ q ∈ sortBy (fun a b => chrLt a.1 b.1) scored,
                  q.2 ∈ variants ∧ canon (.obj q.2) = .ok q.1 := by
                intro q hq
                exact canonVariants_mem variants scored hsc q
                  ((perm_sortBy _ scored).mem_iff.mp hq)
              simp only [Bool.and_eq_true]
              constructor
              · refine IsNormList_of _ ?_
                intro q hq
                exact normVariantsLoop_ok f cfg stack arr path k0 variants
                  (fun m2 hm2 => HA m2 (Nat.lt_succ_of_lt hm2)) hvar q.2 (hmem q hq).1
              · exact variantsAsc_sorted _ hsorted (fun q hq => (hmem q hq).2)
            · exact Or.inr ⟨hpo, hpk⟩

/-- Every successful `normalizeAt` output is in normal form. -/
theorem normalizeAt_norm : ∀ (n : Nat) (cfg : NormCfg) (stack : List String)
    (s : JObj) (path : String) (out : JObj),
    normalizeAtF n cfg stack s path = .ok out → IsNorm out = true := by
  intro n
  induction n using Nat.strong_induction_on with
  | _ n IH =>
    intro cfg stack s path out h
    cases n with
    | zero =>
      simp only [normalizeAtF] at h
      exact Except.noConfusion h
    | succ f =>
      simp only [normalizeAtF] at h
      cases hcp : checkProfile s path with
      | some e => simp only [hcp] at h; exact Except.noConfusion h
      | none =>
        simp only [hcp] at h
        cases hr : refStrOf s with
        | some r =>
          simp only [hr] at h
          cases hrr : resolveRef cfg stack r path with
          | error e => simp only [hrr] at h; exact Except.noConfusion h
          | ok rv =>
            simp only [hrr] at h
            cases ham : asMap (some rv.1) with
            | none => simp only [ham] at h; exact Except.noConfusion h
            | some rm =>
              simp only [ham] at h
              exact IH f (Nat.lt_succ_self f) cfg _ rm path out h
        | none =>
          simp only [hr] at h
          cases hao : getKey (stripKeys s) ("allOf") with
          | some a =>
            simp only [hao] at h
            split at h
            · exact Except.noConfusion h
            · rename_i merged hmg
              exact IH f (Nat.lt_succ_self f) cfg stack merged path out h
          | none =>
            simp only [hao] at h
            split at h
            · exact Except.noConfusion h
            · rename_i o1 h1
              split at h
              · exact Except.noConfusion h
              · rename_i o2 h2
                split at h
                · exact Except.noConfusion h
                · rename_i o3 h3
                  split at h
                  · exact Except.noConfusion h
                  · rename_i o4 h4
                    split at h
                    · exact Except.noConfusion h
                    · rename_i o5 h5
                      split at h
                      · exact Except.noConfusion h
                      · rename_i o6 h6
                        have HA : ∀ m, m < f → ∀ cfg2 stack2 s2 path2 out2,
                            normalizeAtF m cfg2 stack2 s2 path2 = .ok out2 →
                            IsNorm out2 = true :=
                          fun m hm => IH m (Nat.lt_succ_of_lt hm)
                        have hT := normTypeStep_mem _ _ _ h1
                        have hR := normReqStep_mem _ _ _ h2
                        have hP := normPropsStep_mem f cfg stack o2 path o3 HA h3
                        have hA := normAPStep_mem f cfg stack o3 path o4 HA h4
                        have hI := normItemsStep_mem f cfg stack o4 path o5 HA h5
                        have hU1 := normUnionStep_mem f cfg stack o5 path ("oneOf")
                          o6 (by decide) HA h6
                        have hU2 := normUnionStep_mem f cfg stack o6 path ("anyOf")
                          out (by decide) HA h
                        simp only [IsNorm, Bool.and_eq_true]
                        constructor
                        · rw [hU2.1, hU1.1, hI.1, hA.1, hP.1, hR.1, hT.1,
                            refStrOf_stripKeys, hr]
                          rfl
                        · refine (IsNormMembers_iff out).mpr ?_
                          intro p hp
                          obtain ⟨k, v⟩ := p
                          rcases hU2.2 (k, v) hp with ⟨hk, hv⟩ | ⟨hp2, hkAny⟩
                          · have hk2 : k = ("anyOf") := hk
                            subst hk2
                            rw [memP_anyOf]
                            exact hv
                          · rcases hU1.2 (k, v) hp2 with ⟨hk, hv⟩ | ⟨hp3, hkOne⟩
                            · have hk2 : k = ("oneOf") := hk
                              subst hk2
                              rw [memP_oneOf]
                              exact hv
                            · rcases hI.2 (k, v) hp3 with ⟨hk, hv⟩ | ⟨hp4, hkItems⟩
                              · exact hv
                              · rcases hA.2 (k, v) hp4 with ⟨hk, hv⟩ | ⟨hp5, hkAP⟩
                                · exact hv
                                · rcases hP.2 (k, v) hp5 with ⟨hk, hv⟩ | ⟨hp6, hkProps⟩
                                  · exact hv
                                  · rcases hR.2 (k, v) hp6 with ⟨hk, hv⟩ | ⟨hp7, hkReq⟩
                                    · exact hv
                                    · rcases hT.2 (k, v) hp7 with ⟨hk, hv⟩ | ⟨hp8, hkType⟩
                                      · exact hv
                                      · obtain ⟨hm, hannot, hdefs⟩ :=
                                          mem_stripKeys s (k, v) hp8
                                        exact memP_other k v hannot hdefs
                                          (getKey_none_ne _ _ hao (k, v) hp8)
                                          hkType hkReq hkProps hkAP hkItems
                                          hkOne hkAny

/-- C3 (amended): for every schema on which `Normalize` succeeds, the
returned schema satisfies the normalized-form invariants at the root and
at every nested schema position (`properties` values, object-valued
`additionalProperties`, `items`, and `oneOf`/`anyOf` variants): no
`$defs`, `allOf`, or annotation keys; no `$ref` whose value is a
non-blank string (a `$ref` whose value is not a string, or a blank
string, is not inlined and survives); `type` and `required`, when
present, are sorted unique arrays of non-empty strings; and
`oneOf`/`anyOf`, when present, are arrays of normalized schema objects
sorted ascending by their canonical JSON form. -/
theorem claimC3 (fuel : Nat) (cfg : NormCfg) (schema out : JObj)
    (h : Normalize fuel cfg schema = .ok out) : IsNorm out = true :=
  normalizeAt_norm fuel cfg [] schema ("") out h

theorem claimC3_witness :
    IsNorm [(("type"), Json.arr [Json.str ("integer")])] = true :=
  claimC3 10 cfg0 [(("type"), Json.str ("integer")), (("title"), Json.str ("x"))]
    [(("type"), Json.arr [Json.str ("integer")])] rfl

/-- The unamended claim fails: a `$ref` whose value is not a string is
not inlined and not stripped, so a successfully normalized schema can
still contain a `$ref` key. -/
theorem claimC3_counterexample :
    Normalize 10 cfg0 [(("$ref"), Json.num 5 0)] =
      .ok [(("$ref"), Json.num 5 0)] ∧
    hasKey [(("$ref"), Json.num 5 0)] ("$ref") = true :=
  ⟨rfl, rfl⟩
